import Mathlib

/-!
Verification of the `timesheet` repository's aggregation and merge engine.

The development shallowly embeds the Python sources:
  * `timesheet/Timesheet.py` (`DiffTime`, `DayLog`, `Timesheet.merge`,
    `Timesheet.concat_timestamps`),
  * `timesheet/TimeAggregate.py` (the four built-in aggregates),
  * `timesheet/utils.py` (`sum_DayLogs`).

Conventions of the embedding:
  * `datetime.date` is embedded as the structure `Date` of proleptic-Gregorian
    year/month/day fields, valid exactly when Python's `datetime.date` accepts
    the fields (year 1..9999).  `datetime.date.toordinal`/`fromordinal` are
    embedded as `Date.toOrd`/`ordToDate` (Rata Die day numbers, as in CPython);
    `date ± timedelta(days=n)` is ordinal arithmetic, precisely CPython's
    implementation.  Python compares dates field-lexicographically, embedded as
    `Date.lt`/`Date.le`.
  * `datetime.time`/`DiffTime` is embedded as the structure `DiffTime` of
    hour/minute/second/microsecond fields with Python's lexicographic order.
    `DiffTime.__sub__` produces a `timedelta`, embedded as its signed total in
    microseconds (an `Int`); the normalized `days`/`seconds`/`microseconds`
    fields of a timedelta are recovered by flooring division as in CPython.
  * Python `float` arithmetic on worked hours is embedded as exact rational
    (`ℚ`) arithmetic.
  * Python `dict`s are embedded as insertion-ordered association lists with
    unique keys; `ValueError` raised by the code is embedded as
    `Except.error`.
-/

/-- Whether `y` is a leap year, as in Python's `calendar.isleap` /
`datetime._is_leap`. -/
def isLeap (y : Nat) : Bool :=
  y % 4 == 0 && (y % 100 != 0 || y % 400 == 0)

/-- Number of days in month `m` of year `y` (`datetime._days_in_month`). -/
def daysInMonth (y m : Nat) : Nat :=
  if m = 2 then (if isLeap y then 29 else 28)
  else if m = 4 ∨ m = 6 ∨ m = 9 ∨ m = 11 then 30
  else 31

/-- Number of days in year `y` preceding the first of month `m`
(`datetime._days_before_month`). -/
def daysBeforeMonth (y : Nat) : Nat → Nat
  | 0 => 0
  | 1 => 0
  | m + 1 => daysBeforeMonth y m + daysInMonth y m

/-- Number of leap years among years `1..y-1`
(the `y/4 - y/100 + y/400` term of `datetime._days_before_year`). -/
def leapsBefore (y : Nat) : Nat :=
  (y - 1) / 4 - (y - 1) / 100 + (y - 1) / 400

/-- Embedding of `datetime.date`: a proleptic-Gregorian calendar date. -/
structure Date where
  year : Nat
  month : Nat
  day : Nat
  deriving DecidableEq, Repr

/-- Field ranges that make a `Date` a well-formed proleptic-Gregorian date
(no upper bound on the year). -/
def Date.Ok (d : Date) : Prop :=
  1 ≤ d.year ∧ 1 ≤ d.month ∧ d.month ≤ 12 ∧ 1 ≤ d.day ∧ d.day ≤ daysInMonth d.year d.month

instance (d : Date) : Decidable d.Ok :=
  inferInstanceAs (Decidable (_ ∧ _))

/-- Exactly the dates representable by Python's `datetime.date`
(`MINYEAR = 1`, `MAXYEAR = 9999`). -/
def Date.Valid (d : Date) : Prop := d.Ok ∧ d.year ≤ 9999

instance (d : Date) : Decidable d.Valid :=
  inferInstanceAs (Decidable (_ ∧ _))

/-- Python's field-lexicographic comparison of `datetime.date` values. -/
def Date.lt (a b : Date) : Prop :=
  a.year < b.year ∨ (a.year = b.year ∧
    (a.month < b.month ∨ (a.month = b.month ∧ a.day < b.day)))

instance : LT Date := ⟨Date.lt⟩

instance (a b : Date) : Decidable (a < b) :=
  inferInstanceAs (Decidable (_ ∨ _))

def Date.le (a b : Date) : Prop := a < b ∨ a = b

instance : LE Date := ⟨Date.le⟩

instance (a b : Date) : Decidable (a ≤ b) :=
  inferInstanceAs (Decidable (_ ∨ _))

theorem Date.lt_def (a b : Date) : (a < b) ↔
    (a.year < b.year ∨ (a.year = b.year ∧
      (a.month < b.month ∨ (a.month = b.month ∧ a.day < b.day)))) := Iff.rfl

theorem Date.le_def (a b : Date) : (a ≤ b) ↔ (a < b ∨ a = b) := Iff.rfl

theorem Date.ext_iff' {a b : Date} :
    a = b ↔ a.year = b.year ∧ a.month = b.month ∧ a.day = b.day := by
  constructor
  · rintro rfl; exact ⟨rfl, rfl, rfl⟩
  · rintro ⟨h1, h2, h3⟩; cases a; cases b; simp_all

/-- `datetime.date.toordinal`: days since 0000-12-31 (Rata Die). -/
def Date.toOrd (d : Date) : Nat :=
  365 * (d.year - 1) + leapsBefore d.year + daysBeforeMonth d.year d.month + d.day

/-- Successor date, by field arithmetic (used to define `ordToDate`). -/
def nextDate (d : Date) : Date :=
  if d.day < daysInMonth d.year d.month then ⟨d.year, d.month, d.day + 1⟩
  else if d.month < 12 then ⟨d.year, d.month + 1, 1⟩
  else ⟨d.year + 1, 1, 1⟩

/-- `datetime.date.fromordinal`: the date whose ordinal is `n` (for `n ≥ 1`). -/
def ordToDate (n : Nat) : Date :=
  nextDate^[n - 1] ⟨1, 1, 1⟩

theorem daysInMonth_pos (y m : Nat) : 1 ≤ daysInMonth y m := by
  unfold daysInMonth
  split
  · split <;> omega
  · split <;> omega

theorem daysBeforeMonth_succ (y m : Nat) (hm : 1 ≤ m) :
    daysBeforeMonth y (m + 1) = daysBeforeMonth y m + daysInMonth y m := by
  match m, hm with
  | m + 1, _ => rfl

theorem daysBeforeMonth_le_succ (y m : Nat) :
    daysBeforeMonth y m ≤ daysBeforeMonth y (m + 1) := by
  match m with
  | 0 => simp [daysBeforeMonth]
  | m + 1 => rw [daysBeforeMonth_succ y (m + 1) (by omega)]; omega

theorem daysBeforeMonth_mono (y : Nat) {m m' : Nat} (h : m ≤ m') :
    daysBeforeMonth y m ≤ daysBeforeMonth y m' := by
  induction m' with
  | zero =>
    have : m = 0 := by omega
    simp [this]
  | succ k ih =>
    rcases Nat.lt_or_ge m (k + 1) with hlt | hge
    · exact le_trans (ih (by omega)) (daysBeforeMonth_le_succ y k)
    · have : m = k + 1 := by omega
      simp [this]

theorem daysBeforeMonth_13 (y : Nat) :
    daysBeforeMonth y 13 = 365 + (if isLeap y then 1 else 0) := by
  cases h : isLeap y <;>
    simp [daysBeforeMonth, daysInMonth, h]

theorem leapsBefore_succ (y : Nat) (hy : 1 ≤ y) :
    leapsBefore (y + 1) = leapsBefore y + (if isLeap y then 1 else 0) := by
  unfold leapsBefore
  have h4 : y / 4 = (y - 1) / 4 + (if 4 ∣ y then 1 else 0) := by
    have := Nat.succ_div (y - 1) 4
    have hsub : y - 1 + 1 = y := by omega
    rw [hsub] at this
    omega
  have h100 : y / 100 = (y - 1) / 100 + (if 100 ∣ y then 1 else 0) := by
    have := Nat.succ_div (y - 1) 100
    have hsub : y - 1 + 1 = y := by omega
    rw [hsub] at this
    omega
  have h400 : y / 400 = (y - 1) / 400 + (if 400 ∣ y then 1 else 0) := by
    have := Nat.succ_div (y - 1) 400
    have hsub : y - 1 + 1 = y := by omega
    rw [hsub] at this
    omega
  have hd1 : (100 : Nat) ∣ y → (4 : Nat) ∣ y := fun h => dvd_trans ⟨25, by norm_num⟩ h
  have hd2 : (400 : Nat) ∣ y → (100 : Nat) ∣ y := fun h => dvd_trans ⟨4, by norm_num⟩ h
  have hdivle : (y - 1) / 100 ≤ (y - 1) / 4 :=
    Nat.div_le_div_left (by norm_num) (by norm_num)
  have hleap : isLeap y = true ↔ (4 ∣ y ∧ (¬ 100 ∣ y ∨ 400 ∣ y)) := by
    simp [isLeap, Nat.dvd_iff_mod_eq_zero]
  by_cases c4 : (4 : Nat) ∣ y <;> by_cases c100 : (100 : Nat) ∣ y <;>
    by_cases c400 : (400 : Nat) ∣ y <;>
    simp [c4, c100, c400, hleap] at * <;> omega

theorem Date.toOrd_base : Date.toOrd ⟨1, 1, 1⟩ = 1 := by
  simp [Date.toOrd, leapsBefore, daysBeforeMonth]

theorem nextDate_ok {d : Date} (h : d.Ok) : (nextDate d).Ok := by
  obtain ⟨h1, h2, h3, h4, h5⟩ := h
  have hp1 := daysInMonth_pos d.year (d.month + 1)
  have hp2 := daysInMonth_pos (d.year + 1) 1
  unfold nextDate
  split
  · simp only [Date.Ok]; omega
  · split <;> (simp only [Date.Ok]; omega)

theorem toOrd_nextDate {d : Date} (h : d.Ok) :
    (nextDate d).toOrd = d.toOrd + 1 := by
  obtain ⟨h1, h2, h3, h4, h5⟩ := h
  unfold nextDate
  split
  · simp only [Date.toOrd]; omega
  · rename_i hday
    split
    · rename_i hmon
      have hsucc := daysBeforeMonth_succ d.year d.month h2
      simp only [Date.toOrd]
      omega
    · rename_i hmon
      have hm12 : d.month = 12 := by omega
      have h13 := daysBeforeMonth_succ d.year 12 (by omega)
      norm_num at h13
      have h13' := daysBeforeMonth_13 d.year
      have hls := leapsBefore_succ d.year h1
      have hdim : daysInMonth d.year 12 = 31 := by norm_num [daysInMonth]
      have hdb1 : daysBeforeMonth (d.year + 1) 1 = 0 := rfl
      simp only [Date.toOrd]
      rw [hm12] at h5 hday ⊢
      omega

theorem ordToDate_spec : ∀ n : Nat, 1 ≤ n →
    (ordToDate n).Ok ∧ (ordToDate n).toOrd = n := by
  intro n hn
  induction n with
  | zero => omega
  | succ k ih =>
    rcases Nat.lt_or_ge k 1 with hk | hk
    · have : k = 0 := by omega
      subst this
      constructor
      · show (Date.mk 1 1 1).Ok
        decide
      · exact Date.toOrd_base
    · obtain ⟨hok, hord⟩ := ih hk
      have hiter : ordToDate (k + 1) = nextDate (ordToDate k) := by
        unfold ordToDate
        have h1 : k + 1 - 1 = (k - 1) + 1 := by omega
        rw [h1, Function.iterate_succ_apply']
      rw [hiter]
      exact ⟨nextDate_ok hok, by rw [toOrd_nextDate hok, hord]⟩

theorem ordToDate_ok {n : Nat} (hn : 1 ≤ n) : (ordToDate n).Ok :=
  (ordToDate_spec n hn).1

theorem toOrd_ordToDate {n : Nat} (hn : 1 ≤ n) : (ordToDate n).toOrd = n :=
  (ordToDate_spec n hn).2

theorem yearStart_succ (y : Nat) (hy : 1 ≤ y) :
    365 * (y + 1 - 1) + leapsBefore (y + 1) =
      365 * (y - 1) + leapsBefore y + (365 + (if isLeap y then 1 else 0)) := by
  have := leapsBefore_succ y hy
  omega

theorem yearStart_add_mono (k : Nat) : ∀ y, 1 ≤ y →
    365 * (y - 1) + leapsBefore y ≤ 365 * (y + k - 1) + leapsBefore (y + k) := by
  induction k with
  | zero => intro y _; simp
  | succ n ih =>
    intro y hy
    have h1 := ih y hy
    have h2 := yearStart_succ (y + n) (by omega)
    rw [show y + (n + 1) = (y + n) + 1 from rfl]
    omega

theorem yearStart_mono {y y' : Nat} (hy : 1 ≤ y) (h : y ≤ y') :
    365 * (y - 1) + leapsBefore y ≤ 365 * (y' - 1) + leapsBefore y' := by
  have := yearStart_add_mono (y' - y) y hy
  rw [show y + (y' - y) = y' by omega] at this
  exact this

theorem toOrd_year_bound {d : Date} (h : d.Ok) :
    d.toOrd ≤ 365 * (d.year + 1 - 1) + leapsBefore (d.year + 1) := by
  obtain ⟨h1, h2, h3, h4, h5⟩ := h
  have hsucc := daysBeforeMonth_succ d.year d.month h2
  have hmono := daysBeforeMonth_mono d.year (show d.month + 1 ≤ 13 by omega)
  have h13 := daysBeforeMonth_13 d.year
  have hys := yearStart_succ d.year h1
  simp only [Date.toOrd]
  omega

theorem toOrd_lt_of_lt {a b : Date} (ha : a.Ok) (hb : b.Ok) (h : a < b) :
    a.toOrd < b.toOrd := by
  rcases h with hy | ⟨hy, hm | ⟨hm, hd⟩⟩
  · -- strictly smaller year: finish the year, then step through whole years
    have h1 := toOrd_year_bound ha
    have h2 := yearStart_mono (show 1 ≤ a.year + 1 by omega) (show a.year + 1 ≤ b.year from hy)
    have h3 : 365 * (b.year - 1) + leapsBefore b.year + 1 ≤ b.toOrd := by
      obtain ⟨k1, k2, k3, k4, k5⟩ := hb
      simp only [Date.toOrd]
      omega
    omega
  · -- same year, strictly smaller month
    obtain ⟨a1, a2, a3, a4, a5⟩ := ha
    obtain ⟨b1, b2, b3, b4, b5⟩ := hb
    have hsucc := daysBeforeMonth_succ a.year a.month a2
    have hmono := daysBeforeMonth_mono a.year (show a.month + 1 ≤ b.month from hm)
    simp only [Date.toOrd]
    rw [← hy] at *
    omega
  · -- same year and month, strictly smaller day
    simp only [Date.toOrd]
    rw [← hy, ← hm] at *
    omega

theorem Date.lt_trichotomy (a b : Date) : a < b ∨ a = b ∨ b < a := by
  rcases Nat.lt_trichotomy a.year b.year with h | h | h
  · exact Or.inl (Or.inl h)
  · rcases Nat.lt_trichotomy a.month b.month with h' | h' | h'
    · exact Or.inl (Or.inr ⟨h, Or.inl h'⟩)
    · rcases Nat.lt_trichotomy a.day b.day with h'' | h'' | h''
      · exact Or.inl (Or.inr ⟨h, Or.inr ⟨h', h''⟩⟩)
      · exact Or.inr (Or.inl (Date.ext_iff'.2 ⟨h, h', h''⟩))
      · exact Or.inr (Or.inr (Or.inr ⟨h.symm, Or.inr ⟨h'.symm, h''⟩⟩))
    · exact Or.inr (Or.inr (Or.inr ⟨h.symm, Or.inl h'⟩))
  · exact Or.inr (Or.inr (Or.inl h))

theorem Date.lt_irrefl (a : Date) : ¬ a < a := by
  simp [Date.lt_def]

theorem toOrd_lt_iff {a b : Date} (ha : a.Ok) (hb : b.Ok) :
    a < b ↔ a.toOrd < b.toOrd := by
  constructor
  · exact toOrd_lt_of_lt ha hb
  · intro h
    rcases Date.lt_trichotomy a b with h' | h' | h'
    · exact h'
    · subst h'; omega
    · have := toOrd_lt_of_lt hb ha h'
      omega

theorem toOrd_inj {a b : Date} (ha : a.Ok) (hb : b.Ok) (h : a.toOrd = b.toOrd) :
    a = b := by
  rcases Date.lt_trichotomy a b with h' | h' | h'
  · have := toOrd_lt_of_lt ha hb h'; omega
  · exact h'
  · have := toOrd_lt_of_lt hb ha h'; omega

theorem toOrd_le_iff {a b : Date} (ha : a.Ok) (hb : b.Ok) :
    a ≤ b ↔ a.toOrd ≤ b.toOrd := by
  rw [Date.le_def]
  constructor
  · rintro (h | rfl)
    · exact le_of_lt ((toOrd_lt_iff ha hb).1 h)
    · exact le_refl _
  · intro h
    rcases Nat.lt_or_ge a.toOrd b.toOrd with h' | h'
    · exact Or.inl ((toOrd_lt_iff ha hb).2 h')
    · exact Or.inr (toOrd_inj ha hb (by omega))

theorem ordToDate_toOrd {d : Date} (h : d.Ok) : ordToDate d.toOrd = d := by
  have h1 : 1 ≤ d.toOrd := by
    obtain ⟨h1, h2, h3, h4, h5⟩ := h
    simp only [Date.toOrd]; omega
  exact toOrd_inj (ordToDate_ok h1) h (toOrd_ordToDate h1)

theorem toOrd_pos {d : Date} (h : d.Ok) : 1 ≤ d.toOrd := by
  obtain ⟨h1, h2, h3, h4, h5⟩ := h
  simp only [Date.toOrd]; omega

/-- Ordinal of Python's `date.max` (9999-12-31), CPython's `_MAXORDINAL`. -/
def maxOrdinal : Nat := 3652059

theorem toOrd_date_max : Date.toOrd ⟨9999, 12, 31⟩ = maxOrdinal := by decide

theorem valid_iff_ord_le {d : Date} (h : d.Ok) :
    d.Valid ↔ d.toOrd ≤ maxOrdinal := by
  constructor
  · intro hv
    have : d ≤ ⟨9999, 12, 31⟩ := by
      obtain ⟨⟨h1, h2, h3, h4, h5⟩, h6⟩ := hv
      have hd31 : d.day ≤ 31 := by
        have : daysInMonth d.year d.month ≤ 31 := by
          unfold daysInMonth
          split
          · split <;> omega
          · split <;> omega
        omega
      rw [Date.le_def, Date.lt_def, Date.ext_iff']
      dsimp only
      omega
    have := (toOrd_le_iff h (by decide)).1 this
    rw [toOrd_date_max] at this
    exact this
  · intro hord
    refine ⟨h, ?_⟩
    by_contra hy
    have hlt : Date.lt ⟨9999, 12, 31⟩ d := Or.inl (show 9999 < d.year by omega)
    have := toOrd_lt_of_lt (by decide) h hlt
    rw [toOrd_date_max] at this
    omega

/-- ISO weekday (Monday = 1 .. Sunday = 7) of the date with ordinal `o`;
`datetime.date.isoweekday` (ordinal 1, i.e. 0001-01-01, is a Monday). -/
def isoWeekdayOfOrd (o : Nat) : Nat := (o - 1) % 7 + 1

/-- `timesheet/TimeAggregate.py::increment_day`: `date + timedelta(days=1)`. -/
def increment_day (d : Date) : Date := ordToDate (d.toOrd + 1)

/-- `timesheet/TimeAggregate.py::floor_day`: the identity. -/
def floor_day (d : Date) : Date := d

/-- `timesheet/TimeAggregate.py::decrement_day`: `date - timedelta(days=1)`. -/
def decrement_day (d : Date) : Date := ordToDate (d.toOrd - 1)

/-- `timesheet/TimeAggregate.py::floor_week`:
`date - timedelta(days=date.isocalendar()[2] - 1)` (the Monday of the
ISO week containing `date`). -/
def floor_week (d : Date) : Date :=
  ordToDate (d.toOrd - (isoWeekdayOfOrd d.toOrd - 1))

/-- `timesheet/TimeAggregate.py::increment_week`:
`floor_week(date) + timedelta(days=7)`. -/
def increment_week (d : Date) : Date := ordToDate ((floor_week d).toOrd + 7)

/-- `timesheet/TimeAggregate.py::decrement_week`:
`floor_week(date) - timedelta(days=7)`. -/
def decrement_week (d : Date) : Date := ordToDate ((floor_week d).toOrd - 7)

/-- `timesheet/TimeAggregate.py::increment_month`:
`month = date.month % 12 + 1; year = date.year + date.month // 12`. -/
def increment_month (d : Date) : Date :=
  ⟨d.year + d.month / 12, d.month % 12 + 1, 1⟩

/-- `timesheet/TimeAggregate.py::floor_month`: first of the month. -/
def floor_month (d : Date) : Date := ⟨d.year, d.month, 1⟩

/-- `timesheet/TimeAggregate.py::decrement_month`:
`month = 12 - (date.month - 1) % 12; year = date.year - (date.month == 1)`
(True/False arithmetic embedded as an if-expression). -/
def decrement_month (d : Date) : Date :=
  ⟨d.year - (if d.month = 1 then 1 else 0), 12 - (d.month - 1) % 12, 1⟩

/-- `timesheet/TimeAggregate.py::increment_year`. -/
def increment_year (d : Date) : Date := ⟨d.year + 1, 1, 1⟩

/-- `timesheet/TimeAggregate.py::floor_year`: January 1st. -/
def floor_year (d : Date) : Date := ⟨d.year, 1, 1⟩

/-- `timesheet/TimeAggregate.py::decrement_year`. -/
def decrement_year (d : Date) : Date := ⟨d.year - 1, 1, 1⟩

/-- Decimal digit characters of `n`, most significant first (empty for 0):
the digits a C `"%d"` conversion emits for a positive number. -/
def digitChars (n : Nat) : List Char :=
  (Nat.digits 10 n).reverse.map Nat.digitChar

/-- Left-zero-padding to width `w`, as `strftime`'s zero-padded numeric
conversions (`%Y`, `%m`, `%d`, `%W`). -/
def padChars (w n : Nat) : List Char :=
  List.replicate (w - (digitChars n).length) '0' ++ digitChars n

/-- Numeric value of a most-significant-first digit string (decoder used to
prove the format strings injective). -/
def charsVal (l : List Char) : Nat :=
  l.foldl (fun acc c => 10 * acc + (c.toNat - 48)) 0

theorem digitChar_toNat {x : Nat} (h : x < 10) :
    (Nat.digitChar x).toNat = 48 + x := by
  interval_cases x <;> rfl

theorem charsVal_go (L : List Nat) (h : ∀ x ∈ L, x < 10) : ∀ a : Nat,
    (L.reverse.map Nat.digitChar).foldl (fun acc c => 10 * acc + (c.toNat - 48)) a =
      a * 10 ^ L.length + Nat.ofDigits 10 L := by
  induction L with
  | nil => intro a; simp
  | cons x T ih =>
    intro a
    have hx : x < 10 := h x (by simp)
    have hT : ∀ y ∈ T, y < 10 := fun y hy => h y (by simp [hy])
    simp only [List.reverse_cons, List.map_append, List.foldl_append,
      List.map_cons, List.map_nil, List.foldl_cons, List.foldl_nil]
    rw [ih hT a, digitChar_toNat hx]
    simp only [Nat.ofDigits_cons, List.length_cons]
    ring_nf
    omega

theorem charsVal_digitChars (n : Nat) : charsVal (digitChars n) = n := by
  unfold charsVal digitChars
  rw [charsVal_go (Nat.digits 10 n) (fun x hx => Nat.digits_lt_base (by norm_num) hx) 0]
  simp [Nat.ofDigits_digits]

theorem charsVal_padChars (w n : Nat) : charsVal (padChars w n) = n := by
  unfold charsVal padChars
  rw [List.foldl_append]
  have hz : ∀ k, (List.replicate k '0').foldl
      (fun acc c => 10 * acc + (c.toNat - 48)) 0 = 0 := by
    intro k
    induction k with
    | zero => rfl
    | succ m ih => simpa [List.replicate_succ] using ih
  rw [hz]
  exact charsVal_digitChars n

theorem padChars_inj {w a b : Nat} (h : padChars w a = padChars w b) : a = b := by
  have := congrArg charsVal h
  rwa [charsVal_padChars, charsVal_padChars] at this

theorem digitChars_length_le {n w : Nat} (h : n < 10 ^ w) :
    (digitChars n).length ≤ w := by
  unfold digitChars
  simp only [List.length_map, List.length_reverse]
  rcases Nat.eq_zero_or_pos n with rfl | hn
  · simp
  · by_contra hlen
    push_neg at hlen
    have hlog := Nat.digits_len 10 n (by norm_num) (by omega)
    have hpow : 10 ^ w ≤ 10 ^ Nat.log 10 n :=
      Nat.pow_le_pow_right (by norm_num) (by omega)
    have := Nat.pow_log_le_self 10 (show n ≠ 0 by omega)
    omega

theorem padChars_length {w n : Nat} (h : n < 10 ^ w) :
    (padChars w n).length = w := by
  unfold padChars
  have := digitChars_length_le h
  simp only [List.length_append, List.length_replicate]
  omega

/-- 0-based day of the year (C `tm_yday`). -/
def dayOfYear0 (d : Date) : Nat := daysBeforeMonth d.year d.month + d.day - 1

/-- The `%W` week number: weeks start on Monday, and days before the first
Monday of the year fall in week 0 (C `strftime` semantics used by
`datetime.date.strftime`). -/
def weekNumberW (d : Date) : Nat :=
  (dayOfYear0 d + 7 - (isoWeekdayOfOrd d.toOrd - 1)) / 7

/-- `strftime("%Y-%m-%d")`, the Day aggregate's key format (`day_format`). -/
def fmtDay (d : Date) : String :=
  ⟨padChars 4 d.year ++ '-' :: (padChars 2 d.month ++ '-' :: padChars 2 d.day)⟩

/-- `strftime("%Y-%W")`, the Week aggregate's key format (`week_format`). -/
def fmtWeek (d : Date) : String :=
  ⟨padChars 4 d.year ++ '-' :: padChars 2 (weekNumberW d)⟩

/-- `strftime("%Y-%-m")`, the Month aggregate's key format (`month_format`);
the month number is not zero-padded. -/
def fmtMonth (d : Date) : String :=
  ⟨padChars 4 d.year ++ '-' :: digitChars d.month⟩

/-- `strftime("%Y")`, the Year aggregate's key format (`year_format`). -/
def fmtYear (d : Date) : String := ⟨padChars 4 d.year⟩

/-- Embedding of `timesheet/TimeAggregate.py::TimeAggregate`: a strategy
object bundling `decrement`, `increment`, `floor` and the key format
(`string_format`, embedded as the function a date is sent through by
`strftime` with that format string). -/
structure TimeAggregate where
  decrement : Date → Date
  increment : Date → Date
  floor : Date → Date
  fmt : Date → String
  name : String

/-- `TimeAggregate.Day` built-in. -/
def TimeAggregate.Day : TimeAggregate :=
  ⟨decrement_day, increment_day, floor_day, fmtDay, "day"⟩

/-- `TimeAggregate.Week` built-in. -/
def TimeAggregate.Week : TimeAggregate :=
  ⟨decrement_week, increment_week, floor_week, fmtWeek, "week"⟩

/-- `TimeAggregate.Month` built-in. -/
def TimeAggregate.Month : TimeAggregate :=
  ⟨decrement_month, increment_month, floor_month, fmtMonth, "month"⟩

/-- `TimeAggregate.Year` built-in. -/
def TimeAggregate.Year : TimeAggregate :=
  ⟨decrement_year, increment_year, floor_year, fmtYear, "year"⟩

/-- The four built-in aggregation time spans. -/
def builtinAggregates : List TimeAggregate :=
  [TimeAggregate.Day, TimeAggregate.Week, TimeAggregate.Month, TimeAggregate.Year]

theorem floor_week_toOrd {d : Date} (h : d.Ok) :
    (floor_week d).toOrd = d.toOrd - (d.toOrd - 1) % 7 := by
  unfold floor_week isoWeekdayOfOrd
  have h1 := toOrd_pos h
  have h2 : (d.toOrd - 1) % 7 ≤ d.toOrd - 1 := Nat.mod_le _ _
  rw [toOrd_ordToDate (by omega)]
  omega

theorem floor_week_ok {d : Date} (h : d.Ok) : (floor_week d).Ok := by
  unfold floor_week isoWeekdayOfOrd
  have h1 := toOrd_pos h
  have h2 : (d.toOrd - 1) % 7 ≤ d.toOrd - 1 := Nat.mod_le _ _
  exact ordToDate_ok (by omega)

theorem floor_week_valid {d : Date} (h : d.Valid) : (floor_week d).Valid := by
  obtain ⟨hok, hy⟩ := h
  have h1 := floor_week_ok hok
  rw [valid_iff_ord_le h1, floor_week_toOrd hok]
  have h2 := ((valid_iff_ord_le hok).1 ⟨hok, hy⟩)
  omega

theorem floor_week_le {d : Date} (h : d.Ok) : floor_week d ≤ d := by
  rw [toOrd_le_iff (floor_week_ok h) h, floor_week_toOrd h]
  omega

theorem floor_week_mod {d : Date} (h : d.Ok) :
    ((floor_week d).toOrd - 1) % 7 = 0 := by
  rw [floor_week_toOrd h]
  have h1 := toOrd_pos h
  omega

/-- A date is a Monday (a Week-aggregate bucket floor) iff its ordinal is
congruent to 1 mod 7. -/
theorem floor_week_fixed_iff {d : Date} (h : d.Ok) :
    floor_week d = d ↔ (d.toOrd - 1) % 7 = 0 := by
  constructor
  · intro he
    have := floor_week_mod h
    rwa [he] at this
  · intro hm
    have h1 := toOrd_pos h
    unfold floor_week isoWeekdayOfOrd
    rw [hm]
    simp only [Nat.add_sub_cancel, Nat.sub_zero]
    exact ordToDate_toOrd h

theorem floor_week_idem {d : Date} (h : d.Ok) :
    floor_week (floor_week d) = floor_week d :=
  (floor_week_fixed_iff (floor_week_ok h)).2 (floor_week_mod h)

theorem floor_month_ok {d : Date} (h : d.Ok) : (floor_month d).Ok := by
  obtain ⟨h1, h2, h3, h4, h5⟩ := h
  exact ⟨h1, h2, h3, le_refl 1, daysInMonth_pos _ _⟩

theorem floor_month_valid {d : Date} (h : d.Valid) : (floor_month d).Valid :=
  ⟨floor_month_ok h.1, h.2⟩

theorem floor_month_le {d : Date} (h : d.Ok) : floor_month d ≤ d := by
  obtain ⟨h1, h2, h3, h4, h5⟩ := h
  rw [Date.le_def, Date.lt_def, Date.ext_iff']
  unfold floor_month
  dsimp only
  omega

theorem floor_month_idem (d : Date) : floor_month (floor_month d) = floor_month d := rfl

theorem floor_year_ok {d : Date} (h : d.Ok) : (floor_year d).Ok := by
  obtain ⟨h1, h2, h3, h4, h5⟩ := h
  show Date.Ok ⟨d.year, 1, 1⟩
  exact ⟨h1, le_refl 1, by norm_num, le_refl 1, daysInMonth_pos _ _⟩

theorem floor_year_valid {d : Date} (h : d.Valid) : (floor_year d).Valid :=
  ⟨floor_year_ok h.1, h.2⟩

theorem floor_year_le {d : Date} (h : d.Ok) : floor_year d ≤ d := by
  obtain ⟨h1, h2, h3, h4, h5⟩ := h
  show (⟨d.year, 1, 1⟩ : Date) ≤ d
  rw [Date.le_def, Date.lt_def, Date.ext_iff']
  dsimp only
  omega

theorem floor_year_idem (d : Date) : floor_year (floor_year d) = floor_year d := rfl

theorem Date.le_refl' (d : Date) : d ≤ d := Or.inr rfl

theorem floor_month_fixed_iff (f : Date) : floor_month f = f ↔ f.day = 1 := by
  unfold floor_month
  rw [Date.ext_iff']
  constructor
  · rintro ⟨-, -, h⟩; exact h.symm
  · intro h; exact ⟨rfl, rfl, h.symm⟩

theorem floor_year_fixed_iff (f : Date) :
    floor_year f = f ↔ f.month = 1 ∧ f.day = 1 := by
  unfold floor_year
  rw [Date.ext_iff']
  constructor
  · rintro ⟨-, h1, h2⟩; exact ⟨h1.symm, h2.symm⟩
  · rintro ⟨h1, h2⟩; exact ⟨rfl, h1.symm, h2.symm⟩

theorem increment_day_at (d : Date) (hOk : d.Ok) :
    (increment_day d).Ok ∧ (increment_day d).toOrd = d.toOrd + 1 ∧
      d < increment_day d ∧ floor_day (increment_day d) = increment_day d := by
  have h1 := toOrd_pos hOk
  have hOk2 : (increment_day d).Ok := ordToDate_ok (by omega)
  have hto : (increment_day d).toOrd = d.toOrd + 1 :=
    toOrd_ordToDate (n := d.toOrd + 1) (by omega)
  exact ⟨hOk2, hto, (toOrd_lt_iff hOk hOk2).2 (by omega), rfl⟩

theorem increment_day_min {d g : Date} (hOk : d.Ok) (hg : g.Ok) (hlt : d < g) :
    increment_day d ≤ g := by
  obtain ⟨hOk2, hto, -, -⟩ := increment_day_at d hOk
  have := (toOrd_lt_iff hOk hg).1 hlt
  exact (toOrd_le_iff hOk2 hg).2 (by omega)

theorem increment_week_at (f : Date) (hOk : f.Ok) (hfix : floor_week f = f) :
    (increment_week f).Ok ∧ (increment_week f).toOrd = f.toOrd + 7 ∧
      f < increment_week f ∧ floor_week (increment_week f) = increment_week f := by
  have h1 := toOrd_pos hOk
  have hmf : (f.toOrd - 1) % 7 = 0 := (floor_week_fixed_iff hOk).1 hfix
  have he : increment_week f = ordToDate (f.toOrd + 7) := by
    unfold increment_week
    rw [hfix]
  have hOk2 : (ordToDate (f.toOrd + 7)).Ok := ordToDate_ok (by omega)
  have hto : (ordToDate (f.toOrd + 7)).toOrd = f.toOrd + 7 :=
    toOrd_ordToDate (by omega)
  rw [he]
  refine ⟨hOk2, hto, (toOrd_lt_iff hOk hOk2).2 (by omega), ?_⟩
  apply (floor_week_fixed_iff hOk2).2
  rw [hto]
  omega

theorem increment_week_min {f g : Date} (hOk : f.Ok) (hfix : floor_week f = f)
    (hg : g.Ok) (hgfix : floor_week g = g) (hlt : f < g) :
    increment_week f ≤ g := by
  obtain ⟨hOk2, hto, -, -⟩ := increment_week_at f hOk hfix
  have hmf : (f.toOrd - 1) % 7 = 0 := (floor_week_fixed_iff hOk).1 hfix
  have hmg : (g.toOrd - 1) % 7 = 0 := (floor_week_fixed_iff hg).1 hgfix
  have h1 := toOrd_pos hOk
  have h2 := toOrd_pos hg
  have := (toOrd_lt_iff hOk hg).1 hlt
  exact (toOrd_le_iff hOk2 hg).2 (by omega)

theorem increment_month_at (f : Date) (hOk : f.Ok) :
    (increment_month f).Ok ∧ f < increment_month f ∧
      floor_month (increment_month f) = increment_month f := by
  obtain ⟨h1, h2, h3, h4, h5⟩ := hOk
  have hOk2 : (increment_month f).Ok := by
    show Date.Ok ⟨f.year + f.month / 12, f.month % 12 + 1, 1⟩
    exact ⟨show 1 ≤ f.year + f.month / 12 by omega,
      show 1 ≤ f.month % 12 + 1 by omega,
      show f.month % 12 + 1 ≤ 12 by omega,
      le_refl 1, daysInMonth_pos _ _⟩
  refine ⟨hOk2, ?_, rfl⟩
  show Date.lt f ⟨f.year + f.month / 12, f.month % 12 + 1, 1⟩
  show f.year < f.year + f.month / 12 ∨ (f.year = f.year + f.month / 12 ∧
    (f.month < f.month % 12 + 1 ∨ (f.month = f.month % 12 + 1 ∧ f.day < 1)))
  omega

theorem increment_month_min {f g : Date} (hOk : f.Ok) (hfix : floor_month f = f)
    (hg : g.Ok) (hgfix : floor_month g = g) (hlt : f < g) :
    increment_month f ≤ g := by
  obtain ⟨h1, h2, h3, h4, h5⟩ := hOk
  obtain ⟨k1, k2, k3, k4, k5⟩ := hg
  have hd1 : f.day = 1 := (floor_month_fixed_iff f).1 hfix
  have hd2 : g.day = 1 := (floor_month_fixed_iff g).1 hgfix
  rw [Date.lt_def] at hlt
  show (⟨f.year + f.month / 12, f.month % 12 + 1, 1⟩ : Date) ≤ g
  rw [Date.le_def, Date.lt_def, Date.ext_iff']
  dsimp only
  omega

theorem increment_year_at (f : Date) (hOk : f.Ok) :
    (increment_year f).Ok ∧ f < increment_year f ∧
      floor_year (increment_year f) = increment_year f := by
  obtain ⟨h1, h2, h3, h4, h5⟩ := hOk
  have hOk2 : (increment_year f).Ok := by
    show Date.Ok ⟨f.year + 1, 1, 1⟩
    exact ⟨show 1 ≤ f.year + 1 by omega, le_refl 1,
      show (1 : Nat) ≤ 12 by norm_num, le_refl 1, daysInMonth_pos _ _⟩
  refine ⟨hOk2, Or.inl (show f.year < f.year + 1 by omega), rfl⟩

theorem increment_year_min {f g : Date} (hOk : f.Ok) (hfix : floor_year f = f)
    (hg : g.Ok) (hgfix : floor_year g = g) (hlt : f < g) :
    increment_year f ≤ g := by
  obtain ⟨h1, h2, h3, h4, h5⟩ := hOk
  obtain ⟨k1, k2, k3, k4, k5⟩ := hg
  obtain ⟨hm1, hdd1⟩ := (floor_year_fixed_iff f).1 hfix
  obtain ⟨hm2, hdd2⟩ := (floor_year_fixed_iff g).1 hgfix
  rw [Date.lt_def] at hlt
  show (⟨f.year + 1, 1, 1⟩ : Date) ≤ g
  rw [Date.le_def, Date.lt_def, Date.ext_iff']
  dsimp only
  omega

theorem digitChars_inj {a b : Nat} (h : digitChars a = digitChars b) : a = b := by
  have := congrArg charsVal h
  rwa [charsVal_digitChars, charsVal_digitChars] at this

theorem pad4_cons_inj {y1 y2 : Nat} {r1 r2 : List Char} (hy1 : y1 ≤ 9999)
    (hy2 : y2 ≤ 9999)
    (h : padChars 4 y1 ++ '-' :: r1 = padChars 4 y2 ++ '-' :: r2) :
    y1 = y2 ∧ r1 = r2 := by
  have hpow : (10 : Nat) ^ 4 = 10000 := by norm_num
  have hl1 : (padChars 4 y1).length = 4 := padChars_length (by omega)
  have hl2 : (padChars 4 y2).length = 4 := padChars_length (by omega)
  obtain ⟨h1, h2⟩ := List.append_inj h (by omega)
  refine ⟨padChars_inj h1, ?_⟩
  simpa using h2

theorem fmtYear_inj {a b : Date} (h : fmtYear a = fmtYear b) :
    a.year = b.year := by
  unfold fmtYear at h
  have hdata : padChars 4 a.year = padChars 4 b.year := congrArg String.data h
  exact padChars_inj hdata

theorem fmtMonth_inj {a b : Date} (ha : a.year ≤ 9999) (hb : b.year ≤ 9999)
    (h : fmtMonth a = fmtMonth b) : a.year = b.year ∧ a.month = b.month := by
  unfold fmtMonth at h
  have hdata : padChars 4 a.year ++ '-' :: digitChars a.month =
      padChars 4 b.year ++ '-' :: digitChars b.month := congrArg String.data h
  obtain ⟨h1, h2⟩ := pad4_cons_inj ha hb hdata
  exact ⟨h1, digitChars_inj h2⟩

theorem fmtWeek_inj_parts {a b : Date} (ha : a.year ≤ 9999) (hb : b.year ≤ 9999)
    (h : fmtWeek a = fmtWeek b) :
    a.year = b.year ∧ weekNumberW a = weekNumberW b := by
  unfold fmtWeek at h
  have hdata : padChars 4 a.year ++ '-' :: padChars 2 (weekNumberW a) =
      padChars 4 b.year ++ '-' :: padChars 2 (weekNumberW b) := congrArg String.data h
  obtain ⟨h1, h2⟩ := pad4_cons_inj ha hb hdata
  exact ⟨h1, padChars_inj h2⟩

theorem fmtDay_inj {a b : Date} (haOk : a.Ok) (hbOk : b.Ok)
    (ha : a.year ≤ 9999) (hb : b.year ≤ 9999) (h : fmtDay a = fmtDay b) :
    a = b := by
  have hpow : (10 : Nat) ^ 2 = 100 := by norm_num
  obtain ⟨a1, a2, a3, a4, a5⟩ := haOk
  obtain ⟨b1, b2, b3, b4, b5⟩ := hbOk
  have hdim1 : daysInMonth a.year a.month ≤ 31 := by
    unfold daysInMonth
    split
    · split <;> omega
    · split <;> omega
  have hdim2 : daysInMonth b.year b.month ≤ 31 := by
    unfold daysInMonth
    split
    · split <;> omega
    · split <;> omega
  unfold fmtDay at h
  have hdata : padChars 4 a.year ++ '-' :: (padChars 2 a.month ++ '-' :: padChars 2 a.day) =
      padChars 4 b.year ++ '-' :: (padChars 2 b.month ++ '-' :: padChars 2 b.day) :=
    congrArg String.data h
  obtain ⟨h1, h2⟩ := pad4_cons_inj ha hb hdata
  have hl1 : (padChars 2 a.month).length = 2 := padChars_length (by omega)
  have hl2 : (padChars 2 b.month).length = 2 := padChars_length (by omega)
  obtain ⟨h3, h4⟩ := List.append_inj h2 (by omega)
  have h5 : padChars 2 a.day = padChars 2 b.day := by simpa using h4
  exact Date.ext_iff'.2 ⟨h1, padChars_inj h3, padChars_inj h5⟩

/-- Two Mondays of the same calendar year with the same `%W` week number are
equal. -/
theorem weekNumber_toOrd_eq {a b : Date} (haOk : a.Ok) (hbOk : b.Ok)
    (hy : a.year = b.year)
    (hma : (a.toOrd - 1) % 7 = 0) (hmb : (b.toOrd - 1) % 7 = 0)
    (hw : weekNumberW a = weekNumberW b) : a = b := by
  apply toOrd_inj haOk hbOk
  obtain ⟨a1, a2, a3, a4, a5⟩ := haOk
  obtain ⟨b1, b2, b3, b4, b5⟩ := hbOk
  unfold weekNumberW dayOfYear0 isoWeekdayOfOrd at hw
  simp only [Date.toOrd] at *
  rw [hy] at *
  omega

theorem fmtWeek_inj_on_floors {a b : Date} (haOk : a.Ok) (hbOk : b.Ok)
    (ha : a.year ≤ 9999) (hb : b.year ≤ 9999)
    (hfa : floor_week a = a) (hfb : floor_week b = b)
    (h : fmtWeek a = fmtWeek b) : a = b := by
  obtain ⟨h1, h2⟩ := fmtWeek_inj_parts ha hb h
  exact weekNumber_toOrd_eq haOk hbOk h1
    ((floor_week_fixed_iff haOk).1 hfa) ((floor_week_fixed_iff hbOk).1 hfb) h2

theorem fmtMonth_inj_on_floors {a b : Date} (ha : a.year ≤ 9999)
    (hb : b.year ≤ 9999) (hfa : floor_month a = a) (hfb : floor_month b = b)
    (h : fmtMonth a = fmtMonth b) : a = b := by
  obtain ⟨h1, h2⟩ := fmtMonth_inj ha hb h
  have hd1 := (floor_month_fixed_iff a).1 hfa
  have hd2 := (floor_month_fixed_iff b).1 hfb
  exact Date.ext_iff'.2 ⟨h1, h2, by omega⟩

theorem fmtYear_inj_on_floors {a b : Date} (hfa : floor_year a = a)
    (hfb : floor_year b = b) (h : fmtYear a = fmtYear b) : a = b := by
  have h1 := fmtYear_inj h
  obtain ⟨hm1, hd1⟩ := (floor_year_fixed_iff a).1 hfa
  obtain ⟨hm2, hd2⟩ := (floor_year_fixed_iff b).1 hfb
  exact Date.ext_iff'.2 ⟨h1, by omega, by omega⟩

/-- `f` is a bucket floor of aggregate `A`: a valid date fixed by `A.floor`. -/
def IsFloorOf (A : TimeAggregate) (f : Date) : Prop := f.Valid ∧ A.floor f = f

theorem daysInMonth_le_31 (y m : Nat) : daysInMonth y m ≤ 31 := by
  unfold daysInMonth
  split
  · split <;> omega
  · split <;> omega

theorem Date.year_le_of_le {a b : Date} (h : a ≤ b) : a.year ≤ b.year := by
  rw [Date.le_def, Date.lt_def, Date.ext_iff'] at h
  omega

theorem toOrd_le_of_year_le {d : Date} (h : d.Ok) (hy : d.year ≤ 9998) :
    d.toOrd ≤ 3651694 := by
  have hd31 : d.day ≤ 31 := le_trans h.2.2.2.2 (daysInMonth_le_31 _ _)
  have hle : d ≤ ⟨9998, 12, 31⟩ := by
    obtain ⟨h1, h2, h3, h4, h5⟩ := h
    rw [Date.le_def, Date.lt_def, Date.ext_iff']
    dsimp only
    omega
  have := (toOrd_le_iff h (by decide)).1 hle
  have hc : Date.toOrd ⟨9998, 12, 31⟩ = 3651694 := by decide
  omega

theorem builtin_floor_props {A : TimeAggregate} (hA : A ∈ builtinAggregates)
    {d : Date} (hd : d.Valid) : IsFloorOf A (A.floor d) ∧ A.floor d ≤ d := by
  fin_cases hA
  · exact ⟨⟨hd, rfl⟩, Date.le_refl' d⟩
  · exact ⟨⟨floor_week_valid hd, floor_week_idem hd.1⟩, floor_week_le hd.1⟩
  · exact ⟨⟨floor_month_valid hd, floor_month_idem d⟩, floor_month_le hd.1⟩
  · exact ⟨⟨floor_year_valid hd, floor_year_idem d⟩, floor_year_le hd.1⟩

theorem builtin_next_floor {A : TimeAggregate} (hA : A ∈ builtinAggregates)
    {f g : Date} (hf : IsFloorOf A f) (hg : IsFloorOf A g) (hlt : f < g) :
    IsFloorOf A (A.increment f) ∧ f < A.increment f ∧ A.increment f ≤ g := by
  obtain ⟨⟨hfOk, hfy⟩, hffix⟩ := hf
  obtain ⟨⟨hgOk, hgy⟩, hgfix⟩ := hg
  have hgord := (valid_iff_ord_le hgOk).1 ⟨hgOk, hgy⟩
  fin_cases hA
  · obtain ⟨hOk2, hto, hlt2, hfix2⟩ := increment_day_at f hfOk
    have hmin : increment_day f ≤ g := increment_day_min hfOk hgOk hlt
    have hord2 := (toOrd_le_iff hOk2 hgOk).1 hmin
    have hval : (increment_day f).Valid := (valid_iff_ord_le hOk2).2 (by omega)
    exact ⟨⟨hval, hfix2⟩, hlt2, hmin⟩
  · obtain ⟨hOk2, hto, hlt2, hfix2⟩ := increment_week_at f hfOk hffix
    have hmin : increment_week f ≤ g := increment_week_min hfOk hffix hgOk hgfix hlt
    have hord2 := (toOrd_le_iff hOk2 hgOk).1 hmin
    have hval : (increment_week f).Valid := (valid_iff_ord_le hOk2).2 (by omega)
    exact ⟨⟨hval, hfix2⟩, hlt2, hmin⟩
  · obtain ⟨hOk2, hlt2, hfix2⟩ := increment_month_at f hfOk
    have hmin : increment_month f ≤ g := increment_month_min hfOk hffix hgOk hgfix hlt
    have hy2 := Date.year_le_of_le hmin
    have hval : (increment_month f).Valid := ⟨hOk2, by omega⟩
    exact ⟨⟨hval, hfix2⟩, hlt2, hmin⟩
  · obtain ⟨hOk2, hlt2, hfix2⟩ := increment_year_at f hfOk
    have hmin : increment_year f ≤ g := increment_year_min hfOk hffix hgOk hgfix hlt
    have hy2 := Date.year_le_of_le hmin
    have hval : (increment_year f).Valid := ⟨hOk2, by omega⟩
    exact ⟨⟨hval, hfix2⟩, hlt2, hmin⟩

theorem builtin_fmt_inj {A : TimeAggregate} (hA : A ∈ builtinAggregates)
    {f g : Date} (hf : IsFloorOf A f) (hg : IsFloorOf A g)
    (h : A.fmt f = A.fmt g) : f = g := by
  obtain ⟨⟨hfOk, hfy⟩, hffix⟩ := hf
  obtain ⟨⟨hgOk, hgy⟩, hgfix⟩ := hg
  fin_cases hA
  · exact fmtDay_inj hfOk hgOk hfy hgy h
  · exact fmtWeek_inj_on_floors hfOk hgOk hfy hgy hffix hgfix h
  · exact fmtMonth_inj_on_floors hfy hgy hffix hgfix h
  · exact fmtYear_inj_on_floors hffix hgfix h

theorem builtin_increment_at {A : TimeAggregate} (hA : A ∈ builtinAggregates)
    {f : Date} (hf : IsFloorOf A f) (hy : f.year ≤ 9998) :
    IsFloorOf A (A.increment f) ∧ f < A.increment f := by
  obtain ⟨⟨hfOk, hfy⟩, hffix⟩ := hf
  have hmx : maxOrdinal = 3652059 := rfl
  have hbound := toOrd_le_of_year_le hfOk hy
  fin_cases hA
  · obtain ⟨hOk2, hto, hlt2, hfix2⟩ := increment_day_at f hfOk
    have hval : (increment_day f).Valid := (valid_iff_ord_le hOk2).2 (by omega)
    exact ⟨⟨hval, hfix2⟩, hlt2⟩
  · obtain ⟨hOk2, hto, hlt2, hfix2⟩ := increment_week_at f hfOk hffix
    have hval : (increment_week f).Valid := (valid_iff_ord_le hOk2).2 (by omega)
    exact ⟨⟨hval, hfix2⟩, hlt2⟩
  · obtain ⟨hOk2, hlt2, hfix2⟩ := increment_month_at f hfOk
    have hyr : (increment_month f).year = f.year + f.month / 12 := rfl
    have hm12 : f.month ≤ 12 := hfOk.2.2.1
    have hval : (increment_month f).Valid := ⟨hOk2, by omega⟩
    exact ⟨⟨hval, hfix2⟩, hlt2⟩
  · obtain ⟨hOk2, hlt2, hfix2⟩ := increment_year_at f hfOk
    have hyr : (increment_year f).year = f.year + 1 := rfl
    have hval : (increment_year f).Valid := ⟨hOk2, by omega⟩
    exact ⟨⟨hval, hfix2⟩, hlt2⟩

/-- C5: `decrement_month` is claimed to return the first day of the calendar
month immediately preceding `d`'s month (February for a March date).  The
code computes `month = 12 - (3 - 1) % 12 = 10` for March, so
`decrement_month(2022-03-15)` evaluates to 2022-10-01, not the claimed
2022-02-01. -/
theorem C5_decrement_month_eval :
    decrement_month ⟨2022, 3, 15⟩ = ⟨2022, 10, 1⟩ ∧
      decrement_month ⟨2022, 3, 15⟩ ≠ ⟨2022, 2, 1⟩ := by
  decide

/-- C9: for every built-in aggregate and valid date, `floor d ≤ d` and
`floor (floor d) = floor d` — floor is a decreasing idempotent projection
onto bucket starts. -/
theorem C9_floor_le_and_idem :
    ∀ A ∈ builtinAggregates, ∀ d : Date, d.Valid →
      A.floor d ≤ d ∧ A.floor (A.floor d) = A.floor d := by
  intro A hA d hd
  obtain ⟨⟨hv, hfix⟩, hle⟩ := builtin_floor_props hA hd
  exact ⟨hle, hfix⟩

/-- Witness for C9: the Month aggregate at 2022-03-15. -/
theorem C9_floor_le_and_idem_witness :
    (TimeAggregate.Month ∈ builtinAggregates ∧ (Date.mk 2022 3 15).Valid) ∧
      (TimeAggregate.Month.floor ⟨2022, 3, 15⟩ ≤ ⟨2022, 3, 15⟩ ∧
        TimeAggregate.Month.floor (TimeAggregate.Month.floor ⟨2022, 3, 15⟩) =
          TimeAggregate.Month.floor ⟨2022, 3, 15⟩) :=
  ⟨⟨List.Mem.tail _ (List.Mem.tail _ (List.Mem.head _)), by decide⟩,
    C9_floor_le_and_idem TimeAggregate.Month
      (List.Mem.tail _ (List.Mem.tail _ (List.Mem.head _))) ⟨2022, 3, 15⟩ (by decide)⟩

/-- C8: for every valid date (with room for a next bucket) and each built-in
aggregate, `increment (floor d)` is itself a bucket floor, lies strictly
after `floor d`, and is the least floor after `floor d` — i.e. exactly the
next bucket's floor.  Moreover `Week.increment` sends any date of the ISO
week of Monday 2022-06-27 to 2022-07-04, and
`Month.increment(2020-02-01) = 2020-03-01`. -/
theorem C8_increment_next_floor :
    (∀ A ∈ builtinAggregates, ∀ d : Date, d.Valid → d.year ≤ 9998 →
        IsFloorOf A (A.increment (A.floor d)) ∧
        A.floor d < A.increment (A.floor d) ∧
        (∀ g : Date, IsFloorOf A g → A.floor d < g → A.increment (A.floor d) ≤ g)) ∧
    (∀ d : Date, d.Valid → floor_week d = ⟨2022, 6, 27⟩ →
        increment_week d = ⟨2022, 7, 4⟩) ∧
    increment_month ⟨2020, 2, 1⟩ = ⟨2020, 3, 1⟩ := by
  refine ⟨?_, ?_, by decide⟩
  · intro A hA d hd hy
    obtain ⟨hfl, hle⟩ := builtin_floor_props hA hd
    have hfy : (A.floor d).year ≤ 9998 := le_trans (Date.year_le_of_le hle) hy
    obtain ⟨hfl2, hlt2⟩ := builtin_increment_at hA hfl hfy
    exact ⟨hfl2, hlt2, fun g hg hgt => (builtin_next_floor hA hfl hg hgt).2.2⟩
  · intro d hd hf
    unfold increment_week
    rw [hf]
    have he : Date.toOrd ⟨2022, 6, 27⟩ + 7 = Date.toOrd ⟨2022, 7, 4⟩ := by decide
    rw [he]
    exact ordToDate_toOrd (by decide)

/-- Witness for C8: the Year aggregate at 2020-05-15, and the concrete Week
and Month examples. -/
theorem C8_increment_next_floor_witness :
    (TimeAggregate.Year ∈ builtinAggregates ∧ (Date.mk 2020 5 15).Valid ∧
        (2020 : Nat) ≤ 9998) ∧
      (IsFloorOf TimeAggregate.Year
          (TimeAggregate.Year.increment (TimeAggregate.Year.floor ⟨2020, 5, 15⟩)) ∧
        TimeAggregate.Year.floor ⟨2020, 5, 15⟩ <
          TimeAggregate.Year.increment (TimeAggregate.Year.floor ⟨2020, 5, 15⟩) ∧
        (∀ g : Date, IsFloorOf TimeAggregate.Year g →
          TimeAggregate.Year.floor ⟨2020, 5, 15⟩ < g →
          TimeAggregate.Year.increment (TimeAggregate.Year.floor ⟨2020, 5, 15⟩) ≤ g)) ∧
      increment_month ⟨2020, 2, 1⟩ = ⟨2020, 3, 1⟩ :=
  ⟨⟨List.Mem.tail _ (List.Mem.tail _ (List.Mem.tail _ (List.Mem.head _))),
      by decide, by norm_num⟩,
    C8_increment_next_floor.1 TimeAggregate.Year
      (List.Mem.tail _ (List.Mem.tail _ (List.Mem.tail _ (List.Mem.head _))))
      ⟨2020, 5, 15⟩ (by decide) (by norm_num),
    C8_increment_next_floor.2.2⟩

/-- Embedding of `datetime.time` / `Timesheet.DiffTime`: a wall-clock time
with no date component. -/
structure DiffTime where
  hour : Nat
  minute : Nat
  second : Nat
  microsecond : Nat
  deriving DecidableEq, Repr

instance : Inhabited DiffTime := ⟨⟨0, 0, 0, 0⟩⟩

/-- Python's field-lexicographic comparison of `datetime.time` values. -/
def DiffTime.lt (a b : DiffTime) : Prop :=
  a.hour < b.hour ∨ (a.hour = b.hour ∧ (a.minute < b.minute ∨ (a.minute = b.minute ∧
    (a.second < b.second ∨ (a.second = b.second ∧ a.microsecond < b.microsecond)))))

instance : LT DiffTime := ⟨DiffTime.lt⟩

instance (a b : DiffTime) : Decidable (a < b) :=
  inferInstanceAs (Decidable (_ ∨ _))

def DiffTime.le (a b : DiffTime) : Prop := a < b ∨ a = b

instance : LE DiffTime := ⟨DiffTime.le⟩

instance (a b : DiffTime) : Decidable (a ≤ b) :=
  inferInstanceAs (Decidable (_ ∨ _))

/-- Microseconds since midnight of the dummy date both operands of
`DiffTime.__sub__` are projected onto. -/
def DiffTime.toMicro (t : DiffTime) : Int :=
  ((t.hour * 60 + t.minute) * 60 + t.second) * 1000000 + t.microsecond

/-- `DiffTime.__sub__`: the resulting `timedelta`, represented by its signed
total in microseconds. -/
def DiffTime.sub (a b : DiffTime) : Int := a.toMicro - b.toMicro

/-- The normalized `days` field of a `timedelta` of `t` microseconds
(floor division, as in CPython's timedelta normalization). -/
def tdDays (t : Int) : Int := t.fdiv 86400000000

/-- The normalized `seconds` field (in `0..86399`) of a `timedelta`. -/
def tdSeconds (t : Int) : Int := (t.fmod 86400000000).ediv 1000000

/-- The normalized `microseconds` field (in `0..999999`) of a `timedelta`. -/
def tdMicroseconds (t : Int) : Int := (t.fmod 86400000000).emod 1000000

/-- `DayLog.convert_to_hours`: `days*24 + seconds/3600 + microseconds/3.6e9`
over the normalized timedelta fields (`hour_conversions` applied in dict
order), with float arithmetic embedded as `ℚ`. -/
def convert_to_hours (t : Int) : ℚ :=
  24 * (tdDays t : ℚ) + (tdSeconds t : ℚ) / 3600 + (tdMicroseconds t : ℚ) / 3600000000

theorem convert_to_hours_eq (t : Int) :
    convert_to_hours t = (t : ℚ) / 3600000000 := by
  have h1 : 86400000000 * (t.fdiv 86400000000) + t.fmod 86400000000 = t :=
    Int.fdiv_add_fmod t 86400000000
  have h2 : 1000000 * ((t.fmod 86400000000).ediv 1000000) +
      (t.fmod 86400000000).emod 1000000 = t.fmod 86400000000 :=
    Int.ediv_add_emod _ _
  have ht : t = 86400000000 * (tdDays t) + 1000000 * (tdSeconds t) + tdMicroseconds t := by
    unfold tdDays tdSeconds tdMicroseconds
    omega
  have htq : (t : ℚ) = 86400000000 * (tdDays t : ℚ) + 1000000 * (tdSeconds t : ℚ) +
      (tdMicroseconds t : ℚ) := by
    exact_mod_cast ht
  unfold convert_to_hours
  rw [htq]
  ring

/-- Total signed microseconds over the clock-in/clock-out pairs
(1st,2nd), (3rd,4th), … — the `reduce` over
`self.timestamps[i] - self.timestamps[i-1] for i in range(1, n, 2)`,
which ignores an unpaired final timestamp and is the zero timedelta for
fewer than two timestamps. -/
def pairMicro : List DiffTime → Int
  | a :: b :: rest => DiffTime.sub b a + pairMicro rest
  | _ => 0

/-- `DayLog.sum_time_intervals`: the summed timedelta of all pairs converted
to hours once at the end (the warning printed for an odd count is a side
effect not modelled). -/
def sum_time_intervals (l : List DiffTime) : ℚ := convert_to_hours (pairMicro l)

/-- Stated from the claim text of C2 (refinement reference): pair the
timestamps as (1st,2nd), (3rd,4th), …, convert each pair's difference to
hours separately via `days*24 + seconds/3600 + microseconds/3.6e9`, ignore
an unpaired final timestamp, and sum; 0 or 1 timestamps give 0.0. -/
def spec_sum_time_intervals : List DiffTime → ℚ
  | a :: b :: rest => convert_to_hours (DiffTime.sub b a) + spec_sum_time_intervals rest
  | _ => 0

theorem sum_time_intervals_eq_spec (l : List DiffTime) :
    sum_time_intervals l = spec_sum_time_intervals l := by
  unfold sum_time_intervals
  match l with
  | [] => simp [pairMicro, spec_sum_time_intervals, convert_to_hours_eq]
  | [t] => simp [pairMicro, spec_sum_time_intervals, convert_to_hours_eq]
  | a :: b :: rest =>
    have ih := sum_time_intervals_eq_spec rest
    unfold sum_time_intervals at ih
    rw [show pairMicro (a :: b :: rest) = DiffTime.sub b a + pairMicro rest from rfl,
      show spec_sum_time_intervals (a :: b :: rest) =
        convert_to_hours (DiffTime.sub b a) + spec_sum_time_intervals rest from rfl,
      ← ih]
    rw [convert_to_hours_eq, convert_to_hours_eq, convert_to_hours_eq]
    push_cast
    ring

/-- C2: `sum_time_intervals` pairs timestamps as (1st,2nd), (3rd,4th), …,
sums each pair's difference converted to hours by
`days*24 + seconds/3600 + microseconds/3.6e9`, ignores an unpaired final
timestamp, returns 0.0 for fewer than two timestamps, and sends
[02:00, 03:00, 07:30, 08:00] to 1.5. -/
theorem C2_sum_time_intervals_pairing :
    (∀ l : List DiffTime, sum_time_intervals l = spec_sum_time_intervals l) ∧
    sum_time_intervals [] = 0 ∧
    (∀ t : DiffTime, sum_time_intervals [t] = 0) ∧
    sum_time_intervals [⟨2, 0, 0, 0⟩, ⟨3, 0, 0, 0⟩, ⟨7, 30, 0, 0⟩, ⟨8, 0, 0, 0⟩] =
      3 / 2 := by
  refine ⟨sum_time_intervals_eq_spec, ?_, ?_, ?_⟩
  · simp [sum_time_intervals, pairMicro, convert_to_hours_eq]
  · intro t
    simp [sum_time_intervals, pairMicro, convert_to_hours_eq]
  · norm_num [sum_time_intervals, pairMicro, DiffTime.sub, DiffTime.toMicro,
      convert_to_hours_eq]

theorem DiffTime.lt_def' (a b : DiffTime) : a < b ↔
    (a.hour < b.hour ∨ (a.hour = b.hour ∧ (a.minute < b.minute ∨ (a.minute = b.minute ∧
      (a.second < b.second ∨ (a.second = b.second ∧
        a.microsecond < b.microsecond)))))) := Iff.rfl

theorem DiffTime.le_def' (a b : DiffTime) : a ≤ b ↔ (a < b ∨ a = b) := Iff.rfl

theorem DiffTime.ext_iff_t {a b : DiffTime} : a = b ↔
    a.hour = b.hour ∧ a.minute = b.minute ∧ a.second = b.second ∧
      a.microsecond = b.microsecond := by
  constructor
  · rintro rfl; exact ⟨rfl, rfl, rfl, rfl⟩
  · rintro ⟨h1, h2, h3, h4⟩; cases a; cases b; simp_all

theorem DiffTime.lt_trans' {a b c : DiffTime} (h1 : a < b) (h2 : b < c) :
    a < c := by
  rw [DiffTime.lt_def'] at *
  omega

theorem DiffTime.lt_of_lt_of_le' {a b c : DiffTime} (h1 : a < b) (h2 : b ≤ c) :
    a < c := by
  rcases h2 with h2 | rfl
  · exact DiffTime.lt_trans' h1 h2
  · exact h1

theorem DiffTime.lt_of_le_of_lt' {a b c : DiffTime} (h1 : a ≤ b) (h2 : b < c) :
    a < c := by
  rcases h1 with h1 | rfl
  · exact DiffTime.lt_trans' h1 h2
  · exact h2

theorem DiffTime.lt_asymm' {a b : DiffTime} (h : a < b) : ¬ b < a := by
  rw [DiffTime.lt_def'] at *
  omega

theorem DiffTime.lt_irrefl' (a : DiffTime) : ¬ a < a := by
  rw [DiffTime.lt_def']
  omega

theorem DiffTime.not_lt' {a b : DiffTime} : ¬ a < b ↔ b ≤ a := by
  rw [DiffTime.le_def', DiffTime.lt_def', DiffTime.lt_def', DiffTime.ext_iff_t]
  omega

/-- Embedding of `DayLog`: the `date` field and the timestamp list.
`creation_time` is informational, excluded from equality, and omitted. -/
structure DayLog where
  date : Date
  timestamps : List DiffTime
  deriving DecidableEq, Repr

instance : Inhabited DayLog := ⟨⟨⟨1, 1, 1⟩, []⟩⟩

/-- `DayLog._validate_timestamp_sequence`: consecutive timestamps strictly
increase (`timestamps[i+1] > timestamps[i]` for all `i`). -/
def strictlyAscending (l : List DiffTime) : Prop := l.Chain' (· < ·)

/-- Executable version of `strictlyAscending` (kernel-reducible, so concrete
logs can be checked by `decide`). -/
def ascendingB : List DiffTime → Bool
  | [] => true
  | [_] => true
  | a :: b :: rest => decide (a < b) && ascendingB (b :: rest)

theorem ascendingB_iff (l : List DiffTime) :
    ascendingB l = true ↔ strictlyAscending l := by
  match l with
  | [] => simp [ascendingB, strictlyAscending]
  | [a] => simp [ascendingB, strictlyAscending]
  | a :: b :: rest =>
    have ih := ascendingB_iff (b :: rest)
    rw [strictlyAscending, List.chain'_cons]
    rw [strictlyAscending] at ih
    simp only [ascendingB, Bool.and_eq_true, decide_eq_true_eq, ih]

instance (l : List DiffTime) : Decidable (strictlyAscending l) :=
  decidable_of_iff _ (ascendingB_iff l)

/-- `DayLog.__init__` with an explicit date: validate the sequence (raising
`ValueError` otherwise, embedded as `Except.error`) and store it. -/
def mkDayLog (date : Date) (timestamps : List DiffTime) : Except String DayLog :=
  if strictlyAscending timestamps then .ok ⟨date, timestamps⟩
  else .error "Timestamps not all in chronological order"

/-- `timestamps[0]` of a non-empty list (defaulted, only used when the list
is known non-empty). -/
def tsHeadD (l : List DiffTime) : DiffTime := l.head?.getD default

/-- `timestamps[-1]` of a non-empty list (defaulted, only used when the list
is known non-empty). -/
def tsLastD (l : List DiffTime) : DiffTime := l.getLast?.getD default

/-- `DayLog.__add__`: combine two logs of the same date by concatenating the
run that ends earlier before the one that starts later (arbitrary order
when one side is empty); raises `ValueError` when the dates disagree or the
runs interleave.  The result passes through the validating constructor. -/
def dayLogAdd (a b : DayLog) : Except String DayLog :=
  if a.date ≠ b.date then .error "dates disagree"
  else if a.timestamps = [] ∨ b.timestamps = [] ∨
      (tsHeadD a.timestamps ≤ tsLastD a.timestamps ∧
        tsLastD a.timestamps < tsHeadD b.timestamps) then
    mkDayLog a.date (a.timestamps ++ b.timestamps)
  else if tsHeadD b.timestamps ≤ tsLastD b.timestamps ∧
      tsLastD b.timestamps < tsHeadD a.timestamps then
    mkDayLog a.date (b.timestamps ++ a.timestamps)
  else .error "interleaved timestamp ranges"

/-- `DayLog.concat_timestamps`: default an omitted or empty timestamp list to
the single current timestamp `now`, validate ascending order, require the
earliest new timestamp to be strictly later than the latest recorded one,
then append. -/
def concatTimestamps (l : DayLog) (ts : List DiffTime) (now : DiffTime) :
    Except String DayLog :=
  let converted := if ts = [] then [now] else ts
  if ¬ strictlyAscending converted then
    .error "Timestamps not all in chronological order"
  else if l.timestamps ≠ [] ∧ tsHeadD converted ≤ tsLastD l.timestamps then
    .error "Earliest new timestamp not after latest recorded timestamp"
  else .ok ⟨l.date, l.timestamps ++ converted⟩

theorem tsLast_mem_of_ne_nil {l : List DiffTime} (h : l ≠ []) :
    l.getLast? = some (tsLastD l) := by
  unfold tsLastD
  cases hl : l.getLast? with
  | none => exact absurd (List.getLast?_eq_none_iff.1 hl) h
  | some x => rfl

theorem tsHead_mem_of_ne_nil {l : List DiffTime} (h : l ≠ []) :
    l.head? = some (tsHeadD l) := by
  unfold tsHeadD
  cases hl : l.head? with
  | none => exact absurd (List.head?_eq_none_iff.1 hl) h
  | some x => rfl

theorem ascending_head_le_last {l : List DiffTime}
    (hs : strictlyAscending l) (hne : l ≠ []) : tsHeadD l ≤ tsLastD l := by
  induction l with
  | nil => exact absurd rfl hne
  | cons x rest ih =>
    cases rest with
    | nil =>
      show tsHeadD [x] ≤ tsLastD [x]
      exact Or.inr rfl
    | cons y r =>
      have hchain := hs
      rw [strictlyAscending, List.chain'_cons] at hchain
      have hxy : x < y := hchain.1
      have htail := ih hchain.2 (by simp)
      have hh : tsHeadD (x :: y :: r) = x := rfl
      have hh2 : tsHeadD (y :: r) = y := rfl
      have hl2 : tsLastD (x :: y :: r) = tsLastD (y :: r) := by
        unfold tsLastD
        rw [List.getLast?_cons_cons]
      rw [hh, hl2]
      rw [hh2] at htail
      exact Or.inl (DiffTime.lt_of_lt_of_le' hxy htail)

theorem ascending_append {A B : List DiffTime} (hA : strictlyAscending A)
    (hB : strictlyAscending B)
    (h : A = [] ∨ B = [] ∨ tsLastD A < tsHeadD B) :
    strictlyAscending (A ++ B) := by
  unfold strictlyAscending at *
  rw [List.chain'_append]
  refine ⟨hA, hB, ?_⟩
  intro x hx y hy
  rcases h with h | h | h
  · subst h; simp at hx
  · subst h; simp at hy
  · have hA' : A ≠ [] := by intro he; rw [he] at hx; simp at hx
    have hB' : B ≠ [] := by intro he; rw [he] at hy; simp at hy
    rw [tsLast_mem_of_ne_nil hA'] at hx
    rw [tsHead_mem_of_ne_nil hB'] at hy
    simp only [Option.mem_def, Option.some.injEq] at hx hy
    rw [← hx, ← hy]
    exact h

/-- C6: for two same-date DayLogs with valid (strictly ascending) timestamp
sequences, `a + b` and `b + a` either both succeed with timestamp sequences
that are permutations of each other (hence equal as sorted sets), or both
raise; they raise exactly when both logs are non-empty and neither log's
last (maximum) timestamp is strictly below the other's first (minimum). -/
theorem C6_dayLogAdd_commutative (a b : DayLog)
    (hsa : strictlyAscending a.timestamps) (hsb : strictlyAscending b.timestamps)
    (hdate : a.date = b.date) :
    ((∃ la lb, dayLogAdd a b = .ok la ∧ dayLogAdd b a = .ok lb ∧
        la.timestamps.Perm lb.timestamps) ∨
      ((∃ e, dayLogAdd a b = .error e) ∧ (∃ e, dayLogAdd b a = .error e))) ∧
    ((∃ e, dayLogAdd a b = .error e) ↔
      (a.timestamps ≠ [] ∧ b.timestamps ≠ [] ∧
        ¬ tsLastD a.timestamps < tsHeadD b.timestamps ∧
        ¬ tsLastD b.timestamps < tsHeadD a.timestamps)) := by
  have hd2 : ¬ a.date ≠ b.date := by simp [hdate]
  have hd3 : ¬ b.date ≠ a.date := by simp [hdate]
  by_cases hae : a.timestamps = []
  · have h1 : dayLogAdd a b = .ok ⟨a.date, a.timestamps ++ b.timestamps⟩ := by
      unfold dayLogAdd mkDayLog
      rw [if_neg hd2, if_pos (Or.inl hae),
        if_pos (ascending_append hsa hsb (Or.inl hae))]
    have h2 : dayLogAdd b a = .ok ⟨b.date, b.timestamps ++ a.timestamps⟩ := by
      unfold dayLogAdd mkDayLog
      rw [if_neg hd3, if_pos (Or.inr (Or.inl hae)),
        if_pos (ascending_append hsb hsa (Or.inr (Or.inl hae)))]
    constructor
    · exact Or.inl ⟨_, _, h1, h2, List.perm_append_comm⟩
    · constructor
      · rintro ⟨e, he⟩
        rw [h1] at he
        exact absurd he (by simp)
      · rintro ⟨hne, -⟩
        exact absurd hae hne
  · by_cases hbe : b.timestamps = []
    · have h1 : dayLogAdd a b = .ok ⟨a.date, a.timestamps ++ b.timestamps⟩ := by
        unfold dayLogAdd mkDayLog
        rw [if_neg hd2, if_pos (Or.inr (Or.inl hbe)),
          if_pos (ascending_append hsa hsb (Or.inr (Or.inl hbe)))]
      have h2 : dayLogAdd b a = .ok ⟨b.date, b.timestamps ++ a.timestamps⟩ := by
        unfold dayLogAdd mkDayLog
        rw [if_neg hd3, if_pos (Or.inl hbe),
          if_pos (ascending_append hsb hsa (Or.inl hbe))]
      constructor
      · exact Or.inl ⟨_, _, h1, h2, List.perm_append_comm⟩
      · constructor
        · rintro ⟨e, he⟩
          rw [h1] at he
          exact absurd he (by simp)
        · rintro ⟨-, hne, -⟩
          exact absurd hbe hne
    · have hha := ascending_head_le_last hsa hae
      have hhb := ascending_head_le_last hsb hbe
      by_cases hc1 : tsLastD a.timestamps < tsHeadD b.timestamps
      · have hcy : tsHeadD a.timestamps < tsLastD b.timestamps :=
          DiffTime.lt_of_le_of_lt' hha (DiffTime.lt_of_lt_of_le' hc1 hhb)
        have hnc : ¬ tsLastD b.timestamps < tsHeadD a.timestamps :=
          fun h => absurd (DiffTime.lt_trans' hcy h) (DiffTime.lt_irrefl' _)
        have h1 : dayLogAdd a b = .ok ⟨a.date, a.timestamps ++ b.timestamps⟩ := by
          unfold dayLogAdd mkDayLog
          rw [if_neg hd2, if_pos (Or.inr (Or.inr ⟨hha, hc1⟩)),
            if_pos (ascending_append hsa hsb (Or.inr (Or.inr hc1)))]
        have h2 : dayLogAdd b a = .ok ⟨b.date, a.timestamps ++ b.timestamps⟩ := by
          unfold dayLogAdd mkDayLog
          rw [if_neg hd3, if_neg (by
            push_neg
            exact ⟨hbe, hae, fun _ => hnc⟩), if_pos ⟨hha, hc1⟩,
            if_pos (ascending_append hsa hsb (Or.inr (Or.inr hc1)))]
        constructor
        · exact Or.inl ⟨_, _, h1, h2, List.Perm.refl _⟩
        · constructor
          · rintro ⟨e, he⟩
            rw [h1] at he
            exact absurd he (by simp)
          · rintro ⟨-, -, hne, -⟩
            exact absurd hc1 hne
      · by_cases hc2 : tsLastD b.timestamps < tsHeadD a.timestamps
        · have h1 : dayLogAdd a b = .ok ⟨a.date, b.timestamps ++ a.timestamps⟩ := by
            unfold dayLogAdd mkDayLog
            rw [if_neg hd2, if_neg (by
              push_neg
              exact ⟨hae, hbe, fun _ => hc1⟩), if_pos ⟨hhb, hc2⟩,
              if_pos (ascending_append hsb hsa (Or.inr (Or.inr hc2)))]
          have h2 : dayLogAdd b a = .ok ⟨b.date, b.timestamps ++ a.timestamps⟩ := by
            unfold dayLogAdd mkDayLog
            rw [if_neg hd3, if_pos (Or.inr (Or.inr ⟨hhb, hc2⟩)),
              if_pos (ascending_append hsb hsa (Or.inr (Or.inr hc2)))]
          constructor
          · exact Or.inl ⟨_, _, h1, h2, List.Perm.refl _⟩
          · constructor
            · rintro ⟨e, he⟩
              rw [h1] at he
              exact absurd he (by simp)
            · rintro ⟨-, -, -, hne⟩
              exact absurd hc2 hne
        · have h1 : ∃ e, dayLogAdd a b = .error e := by
            refine ⟨"interleaved timestamp ranges", ?_⟩
            unfold dayLogAdd
            rw [if_neg hd2, if_neg (by
              push_neg
              exact ⟨hae, hbe, fun _ => hc1⟩), if_neg (by
              push_neg
              exact fun _ => hc2)]
          have h2 : ∃ e, dayLogAdd b a = .error e := by
            refine ⟨"interleaved timestamp ranges", ?_⟩
            unfold dayLogAdd
            rw [if_neg hd3, if_neg (by
              push_neg
              exact ⟨hbe, hae, fun _ => hc2⟩), if_neg (by
              push_neg
              exact fun _ => hc1)]
          exact ⟨Or.inr ⟨h1, h2⟩, by
            constructor
            · intro _
              exact ⟨hae, hbe, hc1, hc2⟩
            · intro _
              exact h1⟩

/-- Witness for C6: two concrete same-date logs whose runs do not overlap. -/
theorem C6_dayLogAdd_commutative_witness :
    (strictlyAscending [(⟨2, 0, 0, 0⟩ : DiffTime), ⟨3, 0, 0, 0⟩] ∧
      strictlyAscending [(⟨5, 0, 0, 0⟩ : DiffTime)] ∧
      (Date.mk 2022 6 27) = (Date.mk 2022 6 27)) ∧
    (((∃ la lb, dayLogAdd ⟨⟨2022, 6, 27⟩, [⟨2, 0, 0, 0⟩, ⟨3, 0, 0, 0⟩]⟩
          ⟨⟨2022, 6, 27⟩, [⟨5, 0, 0, 0⟩]⟩ = .ok la ∧
        dayLogAdd ⟨⟨2022, 6, 27⟩, [⟨5, 0, 0, 0⟩]⟩
          ⟨⟨2022, 6, 27⟩, [⟨2, 0, 0, 0⟩, ⟨3, 0, 0, 0⟩]⟩ = .ok lb ∧
        la.timestamps.Perm lb.timestamps) ∨
      ((∃ e, dayLogAdd ⟨⟨2022, 6, 27⟩, [⟨2, 0, 0, 0⟩, ⟨3, 0, 0, 0⟩]⟩
          ⟨⟨2022, 6, 27⟩, [⟨5, 0, 0, 0⟩]⟩ = .error e) ∧
        (∃ e, dayLogAdd ⟨⟨2022, 6, 27⟩, [⟨5, 0, 0, 0⟩]⟩
          ⟨⟨2022, 6, 27⟩, [⟨2, 0, 0, 0⟩, ⟨3, 0, 0, 0⟩]⟩ = .error e))) ∧
      ((∃ e, dayLogAdd ⟨⟨2022, 6, 27⟩, [⟨2, 0, 0, 0⟩, ⟨3, 0, 0, 0⟩]⟩
          ⟨⟨2022, 6, 27⟩, [⟨5, 0, 0, 0⟩]⟩ = .error e) ↔
        (([⟨2, 0, 0, 0⟩, ⟨3, 0, 0, 0⟩] : List DiffTime) ≠ [] ∧
          ([(⟨5, 0, 0, 0⟩ : DiffTime)] : List DiffTime) ≠ [] ∧
          ¬ tsLastD [⟨2, 0, 0, 0⟩, ⟨3, 0, 0, 0⟩] < tsHeadD [⟨5, 0, 0, 0⟩] ∧
          ¬ tsLastD [⟨5, 0, 0, 0⟩] < tsHeadD [⟨2, 0, 0, 0⟩, ⟨3, 0, 0, 0⟩]))) :=
  ⟨⟨by decide, by decide, rfl⟩,
    C6_dayLogAdd_commutative ⟨⟨2022, 6, 27⟩, [⟨2, 0, 0, 0⟩, ⟨3, 0, 0, 0⟩]⟩
      ⟨⟨2022, 6, 27⟩, [⟨5, 0, 0, 0⟩]⟩ (by decide) (by decide) rfl⟩

/-- C4 counterexample: on the non-empty log with timestamps `[02:00]`,
`concat_timestamps([])` (with the clock reading 03:00) succeeds and returns
a log whose timestamp sequence is `[02:00, 03:00]`, not the unchanged
`[02:00]` — the empty-list call is not a no-op. -/
theorem C4_concat_empty_not_noop_cex :
    concatTimestamps ⟨⟨2026, 1, 1⟩, [⟨2, 0, 0, 0⟩]⟩ [] ⟨3, 0, 0, 0⟩ =
      .ok ⟨⟨2026, 1, 1⟩, [⟨2, 0, 0, 0⟩, ⟨3, 0, 0, 0⟩]⟩ ∧
    ([(⟨2, 0, 0, 0⟩ : DiffTime), ⟨3, 0, 0, 0⟩] : List DiffTime) ≠
      [⟨2, 0, 0, 0⟩] := by
  constructor
  · rfl
  · decide

/-- C4 (amended): on a non-empty valid DayLog, `concat_timestamps` with an
empty list appends exactly one "now" timestamp — succeeding with
`timestamps ++ [now]` when `now` is strictly later than the latest recorded
timestamp, and raising otherwise. -/
theorem C4_concat_empty_appends_now (l : DayLog) (now : DiffTime)
    (hne : l.timestamps ≠ []) :
    (now ≤ tsLastD l.timestamps →
      concatTimestamps l [] now =
        .error "Earliest new timestamp not after latest recorded timestamp") ∧
    (¬ now ≤ tsLastD l.timestamps →
      concatTimestamps l [] now = .ok ⟨l.date, l.timestamps ++ [now]⟩) := by
  have hasc : strictlyAscending [now] := by
    unfold strictlyAscending
    simp
  have hconv : (if ([] : List DiffTime) = [] then [now] else []) = [now] := by simp
  have hhead : tsHeadD [now] = now := rfl
  constructor
  · intro hle
    unfold concatTimestamps
    rw [hconv, if_neg (by simpa using hasc), if_pos ⟨hne, by rwa [hhead]⟩]
  · intro hgt
    unfold concatTimestamps
    rw [hconv, if_neg (by simpa using hasc), if_neg (by
      rintro ⟨-, hc⟩
      rw [hhead] at hc
      exact hgt hc)]

/-- Witness for C4's amended theorem at a concrete log and clock reading. -/
theorem C4_concat_empty_appends_now_witness :
    (([(⟨2, 0, 0, 0⟩ : DiffTime)] : List DiffTime) ≠ [] ∧
      ¬ (⟨3, 0, 0, 0⟩ : DiffTime) ≤ tsLastD [⟨2, 0, 0, 0⟩]) ∧
    concatTimestamps ⟨⟨2026, 1, 1⟩, [⟨2, 0, 0, 0⟩]⟩ [] ⟨3, 0, 0, 0⟩ =
      .ok ⟨⟨2026, 1, 1⟩, [⟨2, 0, 0, 0⟩] ++ [⟨3, 0, 0, 0⟩]⟩ :=
  ⟨⟨by decide, by decide⟩,
    (C4_concat_empty_appends_now ⟨⟨2026, 1, 1⟩, [⟨2, 0, 0, 0⟩]⟩ ⟨3, 0, 0, 0⟩
      (by decide)).2 (by decide)⟩

/-- A Timesheet's `record`: a Python dict from ISO-date keys (embedded as the
parsed dates, in bijection with the key strings) to DayLogs — an
insertion-ordered association list with unique keys. -/
abbrev Record := List (Date × DayLog)

/-- `record.keys()`. -/
def recKeys (r : Record) : List Date := r.map Prod.fst

/-- `record.get(k)` / `record[k]`: the value bound to `k`, if any. -/
def recGet (r : Record) (k : Date) : Option DayLog :=
  (r.find? (fun p => p.1 == k)).map Prod.snd

/-- `record[k] = v` for a key already present (in-place rebinding). -/
def recSet (r : Record) (k : Date) (v : DayLog) : Record :=
  r.map (fun p => if p.1 = k then (k, v) else p)

/-- Run a fallible computation over each list element in order, propagating
the first `ValueError` — the semantics of a Python comprehension whose body
may raise. -/
def mapExcept (f : α → Except String β) : List α → Except String (List β)
  | [] => .ok []
  | x :: xs => match f x with
    | .error e => .error e
    | .ok y => (mapExcept f xs).map (fun l => y :: l)

theorem mapExcept_cons_error (f : α → Except String β) (x : α) (xs : List α)
    (e : String) (h : f x = .error e) : mapExcept f (x :: xs) = .error e := by
  unfold mapExcept
  rw [h]

theorem mapExcept_cons_ok (f : α → Except String β) (x : α) (xs : List α)
    (y : β) (h : f x = .ok y) :
    mapExcept f (x :: xs) = (mapExcept f xs).map (fun l => y :: l) := by
  show (match f x with
    | .error e => .error e
    | .ok y => (mapExcept f xs).map (fun l => y :: l)) =
      (mapExcept f xs).map (fun l => y :: l)
  rw [h]

theorem mapExcept_error_iff (f : α → Except String β) (xs : List α) :
    (∃ e, mapExcept f xs = .error e) ↔ ∃ x ∈ xs, ∃ e, f x = .error e := by
  induction xs with
  | nil =>
    constructor
    · rintro ⟨e, he⟩
      exact absurd he (by simp [mapExcept])
    · rintro ⟨x, hx, -⟩
      simp at hx
  | cons x xs ih =>
    cases hfx : f x with
    | error e' =>
      rw [mapExcept_cons_error f x xs e' hfx]
      constructor
      · intro _
        exact ⟨x, by simp, e', hfx⟩
      · intro _
        exact ⟨e', rfl⟩
    | ok y =>
      rw [mapExcept_cons_ok f x xs y hfx]
      cases hrest : mapExcept f xs with
      | error e2 =>
        constructor
        · intro _
          obtain ⟨x', hx', hh⟩ := ih.1 ⟨e2, hrest⟩
          exact ⟨x', List.mem_cons_of_mem _ hx', hh⟩
        · intro _
          exact ⟨e2, by simp [Except.map]⟩
      | ok l =>
        constructor
        · rintro ⟨e, he⟩
          exact absurd he (by simp [Except.map])
        · rintro ⟨x', hx', e', he'⟩
          rcases List.mem_cons.1 hx' with rfl | hmem
          · rw [hfx] at he'
            exact absurd he' (by simp)
          · obtain ⟨e2, h2⟩ := ih.2 ⟨x', hmem, e', he'⟩
            rw [h2] at hrest
            exact absurd hrest (by simp)

theorem mapExcept_ok_of_forall (f : α → Except String β) (xs : List α)
    (h : ∀ x ∈ xs, ∃ y, f x = .ok y) : ∃ l, mapExcept f xs = .ok l := by
  induction xs with
  | nil => exact ⟨[], rfl⟩
  | cons x xs ih =>
    obtain ⟨y, hy⟩ := h x (by simp)
    obtain ⟨l, hl⟩ := ih (fun x' hx' => h x' (by simp [hx']))
    refine ⟨y :: l, ?_⟩
    rw [mapExcept_cons_ok f x xs y hy, hl]
    rfl

theorem mapExcept_ok_forall2 (f : α → Except String β) (xs : List α)
    (l : List β) (h : mapExcept f xs = .ok l) :
    List.Forall₂ (fun x y => f x = .ok y) xs l := by
  induction xs generalizing l with
  | nil =>
    unfold mapExcept at h
    cases h
    exact List.Forall₂.nil
  | cons x xs ih =>
    cases hfx : f x with
    | error e =>
      rw [mapExcept_cons_error f x xs e hfx] at h
      exact absurd h (by simp)
    | ok y =>
      rw [mapExcept_cons_ok f x xs y hfx] at h
      cases hrest : mapExcept f xs with
      | error e2 =>
        rw [hrest] at h
        exact absurd h (by simp [Except.map])
      | ok l2 =>
        rw [hrest] at h
        have : y :: l2 = l := by
          simpa [Except.map] using h
        subst this
        exact List.Forall₂.cons hfx (ih l2 hrest)

/-- `Timesheet._constructor` restricted to its record handling: sort entries
in ascending (parsed-date) key order and copy each DayLog through the
validating constructor (`DayLog.copy` re-runs `__init__`). -/
def constructorRecord (data : Record) : Except String Record :=
  mapExcept (fun p => (mkDayLog p.2.date p.2.timestamps).map (fun dl => (p.1, dl)))
    (data.insertionSort (fun p q => p.1 ≤ q.1))

/-- The keys `merge` finds in both records
(`own_keys.intersection(other_keys)`). -/
def mergeCommonKeys (own other : Record) : List Date :=
  (recKeys own).filter (fun k => decide (k ∈ recKeys other))

/-- The keys present in exactly one record
(`own_keys.symmetric_difference(other_keys)`). -/
def mergeDistinctKeys (own other : Record) : List Date :=
  (recKeys own).filter (fun k => ! decide (k ∈ recKeys other)) ++
    (recKeys other).filter (fun k => ! decide (k ∈ recKeys own))

/-- `{ts: self.record.get(ts, other.record.get(ts)) for ts in distinct_keys}`. -/
def mergeDistinctData (own other : Record) : Record :=
  (mergeDistinctKeys own other).map
    (fun k => (k, (recGet own k).getD ((recGet other k).getD default)))

/-- One entry of the common-key comprehension:
`self.record[ts] + other.record[ts]` (keyed). -/
def mergeAddFn (own other : Record) (k : Date) : Except String (Date × DayLog) :=
  (dayLogAdd ((recGet own k).getD default)
    ((recGet other k).getD default)).map (fun dl => (k, dl))

/-- `Timesheet.merge` at the record level: partition the keys into common
and disjoint, take disjoint entries from whichever side has them
(`self.record.get(k, other.record.get(k))`), combine common keys via
`DayLog.__add__`, and rebuild through `_constructor`.  A `ValueError`
raised by any addition propagates before `self.record` is reassigned.
(Python iterates key sets in unspecified order; the embedding fixes one
order, which affects neither the success verdict nor the mapping.) -/
def mergeRecords (own other : Record) : Except String Record :=
  match mapExcept (mergeAddFn own other) (mergeCommonKeys own other) with
  | .error e => .error e
  | .ok commonData => constructorRecord (mergeDistinctData own other ++ commonData)

/-- The effect of a `merge` call on the pair `(self.record, other.record)`:
`self.record` is rebound to the merged mapping only when every step
succeeded, and `other.record` is never written. -/
def mergeState (own other : Record) : (Record × Record) × Option String :=
  match mergeRecords own other with
  | .ok r => ((r, other), none)
  | .error e => ((own, other), some e)

theorem dayLogAdd_self_error_iff (dl : DayLog)
    (hs : strictlyAscending dl.timestamps) :
    (∃ e, dayLogAdd dl dl = .error e) ↔ dl.timestamps ≠ [] := by
  by_cases hne : dl.timestamps = []
  · have h : dayLogAdd dl dl = .ok ⟨dl.date, dl.timestamps ++ dl.timestamps⟩ := by
      unfold dayLogAdd mkDayLog
      rw [if_neg (by simp), if_pos (Or.inl hne),
        if_pos (ascending_append hs hs (Or.inl hne))]
    constructor
    · rintro ⟨e, he⟩
      rw [h] at he
      exact absurd he (by simp)
    · intro hc
      exact absurd hne hc
  · have hh := ascending_head_le_last hs hne
    have hnl : ¬ tsLastD dl.timestamps < tsHeadD dl.timestamps :=
      DiffTime.not_lt'.2 hh
    have h : dayLogAdd dl dl = .error "interleaved timestamp ranges" := by
      unfold dayLogAdd
      rw [if_neg (by simp), if_neg (by
        push_neg
        exact ⟨hne, hne, fun _ => hnl⟩), if_neg (by
        rintro ⟨-, hc⟩
        exact hnl hc)]
    exact ⟨fun _ => hne, fun _ => ⟨_, h⟩⟩

theorem recKeys_cons (p : Date × DayLog) (rest : Record) :
    recKeys (p :: rest) = p.1 :: recKeys rest := rfl

theorem recGet_some_of_mem {r : Record} (hnd : (recKeys r).Nodup) {k : Date}
    {dl : DayLog} (hmem : (k, dl) ∈ r) : recGet r k = some dl := by
  induction r with
  | nil => simp at hmem
  | cons p rest ih =>
    rw [recKeys_cons, List.nodup_cons] at hnd
    rcases List.mem_cons.1 hmem with he | hmem'
    · subst he
      unfold recGet
      rw [List.find?_cons_of_pos (p := fun q : Date × DayLog => q.1 == k)
        (a := (k, dl)) rest (by simp)]
      rfl
    · have hk : ¬ ((fun q : Date × DayLog => q.1 == k) p) = true := by
        simp only [beq_iff_eq]
        intro he
        exact hnd.1 (he ▸ List.mem_map.2 ⟨(k, dl), hmem', rfl⟩)
      unfold recGet
      rw [List.find?_cons_of_neg (p := fun q : Date × DayLog => q.1 == k)
        (a := p) rest hk]
      exact ih hnd.2 hmem'

theorem recGet_none_iff {r : Record} {k : Date} :
    recGet r k = none ↔ k ∉ recKeys r := by
  unfold recGet recKeys
  simp only [Option.map_eq_none', List.find?_eq_none, beq_iff_eq, List.mem_map]
  constructor
  · rintro h ⟨p, hp, he⟩
    exact h p hp he
  · intro h p hp he
    exact h ⟨p, hp, he⟩

theorem mem_of_recGet_some {r : Record} {k : Date} {dl : DayLog}
    (h : recGet r k = some dl) : (k, dl) ∈ r := by
  unfold recGet at h
  cases hf : r.find? (fun q => q.1 == k) with
  | none => rw [hf] at h; exact absurd h (by simp)
  | some p =>
    rw [hf] at h
    have hp2 : p.2 = dl := by simpa using h
    have hpk := List.find?_some hf
    have hmem := List.mem_of_find?_eq_some hf
    have hk : p.1 = k := by simpa using hpk
    have : p = (k, dl) := by
      cases p
      simp_all
    rwa [this] at hmem

theorem constructorRecord_ok_of_sorted (data : Record)
    (h : ∀ p ∈ data, strictlyAscending p.2.timestamps) :
    ∃ l, constructorRecord data = .ok l := by
  apply mapExcept_ok_of_forall
  intro p hp
  have hmem : p ∈ data :=
    (List.perm_insertionSort (fun p q : Date × DayLog => p.1 ≤ q.1) data).subset hp
  have hs := h p hmem
  refine ⟨(p.1, ⟨p.2.date, p.2.timestamps⟩), ?_⟩
  unfold mkDayLog
  rw [if_pos hs]
  rfl

theorem dayLogAdd_ok_sorted {a b dl : DayLog}
    (h : dayLogAdd a b = .ok dl) : strictlyAscending dl.timestamps := by
  unfold dayLogAdd at h
  split at h
  · exact absurd h (by simp)
  · split at h
    · unfold mkDayLog at h
      split at h
      · rename_i hs
        cases h
        exact hs
      · exact absurd h (by simp)
    · split at h
      · unfold mkDayLog at h
        split at h
        · rename_i hs
          cases h
          exact hs
        · exact absurd h (by simp)
      · exact absurd h (by simp)

/-- C3 counterexample: a Timesheet whose record holds a single *empty*
DayLog (exactly the default contents of a fresh Timesheet) merges with
itself successfully — no `ValueError` is raised, contradicting "always
raises ... including when its DayLogs are empty". -/
theorem C3_self_merge_empty_succeeds_cex :
    mergeRecords [(⟨2026, 1, 1⟩, ⟨⟨2026, 1, 1⟩, []⟩)]
        [(⟨2026, 1, 1⟩, ⟨⟨2026, 1, 1⟩, []⟩)] =
      .ok [(⟨2026, 1, 1⟩, ⟨⟨2026, 1, 1⟩, []⟩)] ∧
    ¬ ∃ e, mergeRecords [(⟨2026, 1, 1⟩, ⟨⟨2026, 1, 1⟩, []⟩)]
        [(⟨2026, 1, 1⟩, ⟨⟨2026, 1, 1⟩, []⟩)] = .error e := by
  have h : mergeRecords [(⟨2026, 1, 1⟩, ⟨⟨2026, 1, 1⟩, []⟩)]
      [(⟨2026, 1, 1⟩, ⟨⟨2026, 1, 1⟩, []⟩)] =
      .ok [(⟨2026, 1, 1⟩, ⟨⟨2026, 1, 1⟩, []⟩)] := by rfl
  refine ⟨h, ?_⟩
  rintro ⟨e, he⟩
  rw [h] at he
  exact absurd he (by simp)


theorem forall2_mem_right {α β : Type} {R : α → β → Prop} {xs : List α}
    {ys : List β} (h : List.Forall₂ R xs ys) :
    ∀ y ∈ ys, ∃ x ∈ xs, R x y := by
  induction h with
  | nil =>
    intro y hy
    simp at hy
  | cons hr hrest ih =>
    intro y hy
    rcases List.mem_cons.1 hy with rfl | hy'
    · exact ⟨_, by simp, hr⟩
    · obtain ⟨x, hx, hrx⟩ := ih y hy'
      exact ⟨x, by simp [hx], hrx⟩

theorem mergeAddFn_ok_sorted {own other : Record} {k : Date}
    {q : Date × DayLog} (h : mergeAddFn own other k = .ok q) :
    strictlyAscending q.2.timestamps := by
  unfold mergeAddFn at h
  cases hadd : dayLogAdd ((recGet own k).getD default)
      ((recGet other k).getD default) with
  | error e =>
    rw [hadd] at h
    exact absurd h (by simp [Except.map])
  | ok dl' =>
    rw [hadd] at h
    have : (k, dl') = q := by simpa [Except.map] using h
    rw [← this]
    exact dayLogAdd_ok_sorted hadd

/-- C3 (amended): merging a Timesheet record with itself raises `ValueError`
if and only if at least one of its DayLogs has a non-empty timestamp list
(a record whose DayLogs are all empty self-merges without error). -/
theorem C3_self_merge_amended (r : Record) (hnd : (recKeys r).Nodup)
    (hsorted : ∀ p ∈ r, strictlyAscending p.2.timestamps) :
    (∃ e, mergeRecords r r = .error e) ↔ ∃ p ∈ r, p.2.timestamps ≠ [] := by
  have hcommon : mergeCommonKeys r r = recKeys r := by
    unfold mergeCommonKeys
    apply List.filter_eq_self.2
    intro a ha
    simpa using ha
  constructor
  · rintro ⟨e, he⟩
    unfold mergeRecords at he
    rw [hcommon] at he
    cases hm : mapExcept (mergeAddFn r r) (recKeys r) with
    | error e0 =>
      obtain ⟨k, hk, e1, he1⟩ := (mapExcept_error_iff _ _).1 ⟨e0, hm⟩
      obtain ⟨p, hp, hpk⟩ := List.mem_map.1 hk
      have hget : recGet r k = some p.2 := by
        rw [← hpk]
        exact recGet_some_of_mem hnd hp
      unfold mergeAddFn at he1
      rw [hget] at he1
      simp only [Option.getD_some] at he1
      cases hadd : dayLogAdd p.2 p.2 with
      | ok dl' =>
        rw [hadd] at he1
        exact absurd he1 (by simp [Except.map])
      | error e2 =>
        exact ⟨p, hp, (dayLogAdd_self_error_iff p.2 (hsorted p hp)).1 ⟨e2, hadd⟩⟩
    | ok cd =>
      rw [hm] at he
      have he2 : constructorRecord (mergeDistinctData r r ++ cd) = .error e := he
      have hsorted2 : ∀ p ∈ mergeDistinctData r r ++ cd,
          strictlyAscending p.2.timestamps := by
        intro p hp
        rcases List.mem_append.1 hp with hp' | hp'
        · unfold mergeDistinctData at hp'
          obtain ⟨k, hk, hpk⟩ := List.mem_map.1 hp'
          unfold mergeDistinctKeys at hk
          rcases List.mem_append.1 hk with hk' | hk' <;>
          · obtain ⟨hmem, hdec⟩ := List.mem_filter.1 hk'
            simp only [Bool.not_eq_true', decide_eq_false_iff_not] at hdec
            exact absurd hmem hdec
        · obtain ⟨k, hk, hfk⟩ :=
            forall2_mem_right (mapExcept_ok_forall2 _ _ _ hm) p hp'
          exact mergeAddFn_ok_sorted hfk
      obtain ⟨l, hl⟩ := constructorRecord_ok_of_sorted _ hsorted2
      rw [hl] at he2
      exact absurd he2 (by simp)
  · rintro ⟨p, hp, hne⟩
    have hget : recGet r p.1 = some p.2 := recGet_some_of_mem hnd hp
    have hkmem : p.1 ∈ recKeys r := List.mem_map.2 ⟨p, hp, rfl⟩
    obtain ⟨e2, hadd⟩ := (dayLogAdd_self_error_iff p.2 (hsorted p hp)).2 hne
    obtain ⟨e, he⟩ : ∃ e, mapExcept (mergeAddFn r r) (recKeys r) = .error e := by
      apply (mapExcept_error_iff _ _).2
      refine ⟨p.1, hkmem, e2, ?_⟩
      unfold mergeAddFn
      rw [hget]
      simp only [Option.getD_some]
      rw [hadd]
      rfl
    refine ⟨e, ?_⟩
    unfold mergeRecords
    rw [hcommon, he]

/-- Witness for C3's amended theorem: a one-entry record whose DayLog is
non-empty self-merges with an error. -/
theorem C3_self_merge_amended_witness :
    ((recKeys [(⟨2022, 6, 27⟩, ⟨⟨2022, 6, 27⟩, [⟨2, 0, 0, 0⟩]⟩)]).Nodup ∧
      (∀ p ∈ ([(⟨2022, 6, 27⟩, ⟨⟨2022, 6, 27⟩, [⟨2, 0, 0, 0⟩]⟩)] : Record),
        strictlyAscending p.2.timestamps)) ∧
    ((∃ e, mergeRecords [(⟨2022, 6, 27⟩, ⟨⟨2022, 6, 27⟩, [⟨2, 0, 0, 0⟩]⟩)]
        [(⟨2022, 6, 27⟩, ⟨⟨2022, 6, 27⟩, [⟨2, 0, 0, 0⟩]⟩)] = .error e) ↔
      ∃ p ∈ ([(⟨2022, 6, 27⟩, ⟨⟨2022, 6, 27⟩, [⟨2, 0, 0, 0⟩]⟩)] : Record),
        p.2.timestamps ≠ []) :=
  ⟨⟨by decide, by decide⟩,
    C3_self_merge_amended [(⟨2022, 6, 27⟩, ⟨⟨2022, 6, 27⟩, [⟨2, 0, 0, 0⟩]⟩)]
      (by decide) (by decide)⟩

theorem forall2_mem_left {α β : Type} {R : α → β → Prop} {xs : List α}
    {ys : List β} (h : List.Forall₂ R xs ys) :
    ∀ x ∈ xs, ∃ y ∈ ys, R x y := by
  induction h with
  | nil =>
    intro x hx
    simp at hx
  | cons hr hrest ih =>
    intro x hx
    rcases List.mem_cons.1 hx with rfl | hx'
    · exact ⟨_, by simp, hr⟩
    · obtain ⟨y, hy, hry⟩ := ih x hx'
      exact ⟨y, by simp [hy], hry⟩

theorem mergeAddFn_ok_parts {own other : Record} {k : Date}
    {q : Date × DayLog} (h : mergeAddFn own other k = .ok q) :
    q.1 = k ∧ dayLogAdd ((recGet own k).getD default)
      ((recGet other k).getD default) = .ok q.2 := by
  unfold mergeAddFn at h
  cases hadd : dayLogAdd ((recGet own k).getD default)
      ((recGet other k).getD default) with
  | error e =>
    rw [hadd] at h
    exact absurd h (by simp [Except.map])
  | ok dl' =>
    rw [hadd] at h
    have : (k, dl') = q := by simpa [Except.map] using h
    rw [← this]
    exact ⟨rfl, rfl⟩

theorem recKeys_forall2_common {own other : Record} {ck : List Date}
    {cd : List (Date × DayLog)}
    (h : List.Forall₂ (fun k q => mergeAddFn own other k = .ok q) ck cd) :
    recKeys cd = ck := by
  induction h with
  | nil => rfl
  | cons hr hrest ih =>
    rw [recKeys_cons, ih, (mergeAddFn_ok_parts hr).1]

theorem recGet_append_of_not_mem_left {l₁ l₂ : Record} {k : Date}
    (h : k ∉ recKeys l₁) : recGet (l₁ ++ l₂) k = recGet l₂ k := by
  have h1 : recGet l₁ k = none := recGet_none_iff.2 h
  unfold recGet at *
  rw [List.find?_append]
  cases hf : l₁.find? (fun p => p.1 == k) with
  | none => simp [Option.or]
  | some p =>
    rw [hf] at h1
    exact absurd h1 (by simp)

theorem recGet_append_of_some_left {l₁ l₂ : Record} {k : Date} {v : DayLog}
    (h : recGet l₁ k = some v) : recGet (l₁ ++ l₂) k = some v := by
  unfold recGet at *
  rw [List.find?_append]
  cases hf : l₁.find? (fun p => p.1 == k) with
  | none =>
    rw [hf] at h
    exact absurd h (by simp)
  | some p =>
    rw [hf] at h
    simpa [Option.or] using h

theorem recGet_some_of_mem_keys {l : Record} {k : Date}
    (h : k ∈ recKeys l) : ∃ v, recGet l k = some v := by
  cases hg : recGet l k with
  | none => exact absurd (recGet_none_iff.1 hg) (by simp [h])
  | some v => exact ⟨v, rfl⟩

theorem recGet_perm {l l' : Record} (h : l.Perm l')
    (hnd : (recKeys l').Nodup) (k : Date) : recGet l k = recGet l' k := by
  have hnd1 : (recKeys l).Nodup := ((h.map Prod.fst).nodup_iff).2 hnd
  cases hg : recGet l' k with
  | some dl =>
    exact recGet_some_of_mem hnd1 (h.mem_iff.2 (mem_of_recGet_some hg))
  | none =>
    apply recGet_none_iff.2
    intro hk
    have : k ∈ recKeys l' := by
      have := (h.map Prod.fst).mem_iff.1 hk
      exact this
    exact absurd hg (by
      obtain ⟨v, hv⟩ := recGet_some_of_mem_keys this
      simp [hv])

theorem constructorRecord_ok_eq {data r : Record}
    (h : constructorRecord data = .ok r) :
    r.Perm data := by
  have hfa := mapExcept_ok_forall2 _ _ _ h
  have heq : r = data.insertionSort (fun p q => p.1 ≤ q.1) := by
    have : List.Forall₂ (fun (p q : Date × DayLog) => p = q)
        (data.insertionSort (fun p q => p.1 ≤ q.1)) r := by
      apply hfa.imp
      intro p q hpq
      unfold mkDayLog at hpq
      split at hpq
      · have : (p.1, (⟨p.2.date, p.2.timestamps⟩ : DayLog)) = q := by
          simpa [Except.map] using hpq
        rw [← this]
      · exact absurd hpq (by simp [Except.map])
    have := List.forall₂_eq_eq_eq ▸ this
    exact this.symm
  rw [heq]
  exact List.perm_insertionSort _ _

theorem mem_mergeCommonKeys {own other : Record} {k : Date} :
    k ∈ mergeCommonKeys own other ↔ k ∈ recKeys own ∧ k ∈ recKeys other := by
  unfold mergeCommonKeys
  simp [List.mem_filter]

theorem mem_mergeDistinctKeys {own other : Record} {k : Date} :
    k ∈ mergeDistinctKeys own other ↔
      ((k ∈ recKeys own ∧ k ∉ recKeys other) ∨
        (k ∈ recKeys other ∧ k ∉ recKeys own)) := by
  unfold mergeDistinctKeys
  simp [List.mem_filter, List.mem_append]

theorem mergeDistinctKeys_nodup {own other : Record}
    (h1 : (recKeys own).Nodup) (h2 : (recKeys other).Nodup) :
    (mergeDistinctKeys own other).Nodup := by
  unfold mergeDistinctKeys
  rw [List.nodup_append]
  refine ⟨h1.filter _, h2.filter _, ?_⟩
  intro a ha hb
  obtain ⟨hma, hda⟩ := List.mem_filter.1 ha
  obtain ⟨hmb, hdb⟩ := List.mem_filter.1 hb
  simp only [Bool.not_eq_true', decide_eq_false_iff_not] at hda
  exact hda hmb

theorem merge_keys_nodup {own other : Record}
    (h1 : (recKeys own).Nodup) (h2 : (recKeys other).Nodup) :
    (mergeDistinctKeys own other ++ mergeCommonKeys own other).Nodup := by
  rw [List.nodup_append]
  refine ⟨mergeDistinctKeys_nodup h1 h2, h1.filter _, ?_⟩
  intro a ha hb
  obtain ⟨hao, hat⟩ := mem_mergeCommonKeys.1 hb
  rcases mem_mergeDistinctKeys.1 ha with ⟨-, hno⟩ | ⟨-, hno⟩
  · exact hno hat
  · exact hno hao

theorem recKeys_mergeDistinctData (own other : Record) :
    recKeys (mergeDistinctData own other) = mergeDistinctKeys own other := by
  unfold recKeys mergeDistinctData
  generalize mergeDistinctKeys own other = l
  induction l with
  | nil => rfl
  | cons x xs ih =>
    simp only [List.map_cons]
    rw [ih]

theorem recKeys_append (l1 l2 : Record) :
    recKeys (l1 ++ l2) = recKeys l1 ++ recKeys l2 := by
  unfold recKeys
  rw [List.map_append]

/-- C7: `Timesheet.merge` leaves both inputs' mappings unmodified.  The
other record is never written; on a `ValueError` from any per-key DayLog
addition, `self.record` keeps its old value (the exception propagates
before `_constructor` rebinds it); and on success the result is a fresh
mapping combining the two inputs — each key bound to the DayLog from
whichever side held it, or to the sum of the two DayLogs for shared keys. -/
theorem C7_merge_frame (own other : Record) :
    (mergeState own other).1.2 = other ∧
    ((∃ e, mergeRecords own other = .error e) →
      (mergeState own other).1.1 = own) ∧
    (∀ r, mergeRecords own other = .ok r →
      (recKeys own).Nodup → (recKeys other).Nodup →
      ∀ k : Date, recGet r k =
        (match recGet own k, recGet other k with
          | some a, some b => (dayLogAdd a b).toOption
          | some a, none => some a
          | none, some b => some b
          | none, none => none)) := by
  refine ⟨?_, ?_, ?_⟩
  · unfold mergeState
    cases h : mergeRecords own other <;> rfl
  · rintro ⟨e, he⟩
    unfold mergeState
    rw [he]
  · intro r hok hnd1 hnd2 k
    unfold mergeRecords at hok
    cases hm : mapExcept (mergeAddFn own other) (mergeCommonKeys own other) with
    | error e =>
      rw [hm] at hok
      have hok2 : (Except.error e : Except String Record) = .ok r := hok
      exact absurd hok2 (by simp)
    | ok cd =>
      rw [hm] at hok
      have hok2 : constructorRecord (mergeDistinctData own other ++ cd) = .ok r := hok
      have hperm := constructorRecord_ok_eq hok2
      have hfa := mapExcept_ok_forall2 _ _ _ hm
      have hkeys_cd : recKeys cd = mergeCommonKeys own other :=
        recKeys_forall2_common hfa
      have hkeys : recKeys (mergeDistinctData own other ++ cd) =
          mergeDistinctKeys own other ++ mergeCommonKeys own other := by
        rw [recKeys_append, recKeys_mergeDistinctData, hkeys_cd]
      have hnodup : (recKeys (mergeDistinctData own other ++ cd)).Nodup := by
        rw [hkeys]
        exact merge_keys_nodup hnd1 hnd2
      rw [recGet_perm hperm hnodup k]
      cases hgo : recGet own k with
      | some a =>
        have hko : k ∈ recKeys own :=
          List.mem_map.2 ⟨(k, a), mem_of_recGet_some hgo, rfl⟩
        cases hgt : recGet other k with
        | some b =>
          have hkt : k ∈ recKeys other :=
            List.mem_map.2 ⟨(k, b), mem_of_recGet_some hgt, rfl⟩
          have hkc : k ∈ mergeCommonKeys own other :=
            mem_mergeCommonKeys.2 ⟨hko, hkt⟩
          have hkd : k ∉ recKeys (mergeDistinctData own other) := by
            rw [recKeys_mergeDistinctData]
            intro hk
            rcases mem_mergeDistinctKeys.1 hk with ⟨-, hno⟩ | ⟨-, hno⟩
            · exact hno hkt
            · exact hno hko
          rw [recGet_append_of_not_mem_left hkd]
          obtain ⟨q, hq, hfq⟩ := forall2_mem_left hfa k hkc
          obtain ⟨hq1, hq2⟩ := mergeAddFn_ok_parts hfq
          have hmemq : (k, q.2) ∈ cd := by
            rw [← hq1]
            simpa using hq
          have hcdnodup : (recKeys cd).Nodup := by
            rw [hkeys_cd]
            exact hnd1.filter _
          rw [recGet_some_of_mem hcdnodup hmemq]
          rw [hgo, hgt] at hq2
          simp only [Option.getD_some] at hq2
          simp [hq2, Except.toOption]
        | none =>
          have hkt : k ∉ recKeys other := recGet_none_iff.1 hgt
          have hkd : k ∈ mergeDistinctKeys own other :=
            mem_mergeDistinctKeys.2 (Or.inl ⟨hko, hkt⟩)
          have hmem : (k, a) ∈ mergeDistinctData own other := by
            unfold mergeDistinctData
            apply List.mem_map.2
            refine ⟨k, hkd, ?_⟩
            rw [hgo]
            rfl
          have hddnodup : (recKeys (mergeDistinctData own other)).Nodup := by
            rw [recKeys_mergeDistinctData]
            exact mergeDistinctKeys_nodup hnd1 hnd2
          rw [recGet_append_of_some_left (recGet_some_of_mem hddnodup hmem)]
      | none =>
        have hko : k ∉ recKeys own := recGet_none_iff.1 hgo
        cases hgt : recGet other k with
        | some b =>
          have hkt : k ∈ recKeys other :=
            List.mem_map.2 ⟨(k, b), mem_of_recGet_some hgt, rfl⟩
          have hkd : k ∈ mergeDistinctKeys own other :=
            mem_mergeDistinctKeys.2 (Or.inr ⟨hkt, hko⟩)
          have hmem : (k, b) ∈ mergeDistinctData own other := by
            unfold mergeDistinctData
            apply List.mem_map.2
            refine ⟨k, hkd, ?_⟩
            rw [hgo, hgt]
            rfl
          have hddnodup : (recKeys (mergeDistinctData own other)).Nodup := by
            rw [recKeys_mergeDistinctData]
            exact mergeDistinctKeys_nodup hnd1 hnd2
          rw [recGet_append_of_some_left (recGet_some_of_mem hddnodup hmem)]
        | none =>
          have hkt : k ∉ recKeys other := recGet_none_iff.1 hgt
          apply recGet_none_iff.2
          rw [hkeys]
          intro hk
          rcases List.mem_append.1 hk with hk' | hk'
          · rcases mem_mergeDistinctKeys.1 hk' with ⟨hmem, -⟩ | ⟨hmem, -⟩
            · exact hko hmem
            · exact hkt hmem
          · obtain ⟨hmem, -⟩ := mem_mergeCommonKeys.1 hk'
            exact hko hmem

/-- Witness for C7 at concrete records with one shared key. -/
theorem C7_merge_frame_witness :
    ((∃ e, mergeRecords [(⟨2022, 6, 27⟩, ⟨⟨2022, 6, 27⟩, []⟩)]
        [(⟨2022, 6, 28⟩, ⟨⟨2022, 6, 28⟩, []⟩)] = .error e) →
      (mergeState [(⟨2022, 6, 27⟩, ⟨⟨2022, 6, 27⟩, []⟩)]
        [(⟨2022, 6, 28⟩, ⟨⟨2022, 6, 28⟩, []⟩)]).1.1 =
        [(⟨2022, 6, 27⟩, ⟨⟨2022, 6, 27⟩, []⟩)]) ∧
    (mergeState [(⟨2022, 6, 27⟩, ⟨⟨2022, 6, 27⟩, []⟩)]
        [(⟨2022, 6, 28⟩, ⟨⟨2022, 6, 28⟩, []⟩)]).1.2 =
      [(⟨2022, 6, 28⟩, ⟨⟨2022, 6, 28⟩, []⟩)] :=
  ⟨(C7_merge_frame [(⟨2022, 6, 27⟩, ⟨⟨2022, 6, 27⟩, []⟩)]
      [(⟨2022, 6, 28⟩, ⟨⟨2022, 6, 28⟩, []⟩)]).2.1,
    (C7_merge_frame [(⟨2022, 6, 27⟩, ⟨⟨2022, 6, 27⟩, []⟩)]
      [(⟨2022, 6, 28⟩, ⟨⟨2022, 6, 28⟩, []⟩)]).1⟩

/-- `Timesheet.concat_timestamps`: default an omitted/empty timestamp list to
`[datetime.datetime.today()]` (embedded as `now`), then either create a new
DayLog — note `DayLog(timestamps=...)` is called *without* the date, so the
new log's own `date` defaults to today — and store it under `d`'s ISO key,
or delegate to the existing DayLog's `concat_timestamps`.  (The final
`self.save` call is external persistence, not modelled.) -/
def tsRecordConcat (rec : Record) (d : Date) (ts : List DiffTime)
    (today : Date) (now : DiffTime) : Except String Record :=
  let defaulted := if ts = [] then [now] else ts
  match recGet rec d with
  | none => (mkDayLog today defaulted).map (fun dl => rec ++ [(d, dl)])
  | some data => (concatTimestamps data defaulted now).map (fun dl => recSet rec d dl)

/-- C10: when `date` has no entry in the record, `Timesheet.concat_timestamps`
stores the new DayLog under `date`'s key, but the DayLog itself is
constructed without a date and so carries today's date — the record key `d`
and the stored DayLog's `date` field can disagree (they agree only when
`d` happens to be today). -/
theorem C10_new_daylog_dated_today (rec : Record) (d : Date)
    (ts : List DiffTime) (today : Date) (now : DiffTime)
    (habsent : recGet rec d = none)
    (hasc : strictlyAscending (if ts = [] then [now] else ts)) :
    tsRecordConcat rec d ts today now =
      .ok (rec ++ [(d, ⟨today, if ts = [] then [now] else ts⟩)]) ∧
    ∀ r, tsRecordConcat rec d ts today now = .ok r →
      recGet r d = some ⟨today, if ts = [] then [now] else ts⟩ := by
  have hmk : mkDayLog today (if ts = [] then [now] else ts) =
      .ok ⟨today, if ts = [] then [now] else ts⟩ := by
    unfold mkDayLog
    rw [if_pos hasc]
  have h1 : tsRecordConcat rec d ts today now =
      .ok (rec ++ [(d, ⟨today, if ts = [] then [now] else ts⟩)]) := by
    unfold tsRecordConcat
    rw [habsent]
    show Except.map (fun dl => rec ++ [(d, dl)])
      (mkDayLog today (if ts = [] then [now] else ts)) = _
    rw [hmk]
    rfl
  refine ⟨h1, ?_⟩
  intro r hr
  rw [h1] at hr
  have hr2 : rec ++ [(d, (⟨today, if ts = [] then [now] else ts⟩ : DayLog))] = r := by
    simpa using hr
  rw [← hr2]
  rw [recGet_append_of_not_mem_left (by
    intro hk
    obtain ⟨v, hv⟩ := recGet_some_of_mem_keys hk
    rw [habsent] at hv
    exact absurd hv (by simp))]
  unfold recGet
  rw [List.find?_cons_of_pos (p := fun q : Date × DayLog => q.1 == d)
    (a := (d, (⟨today, if ts = [] then [now] else ts⟩ : DayLog))) [] (by simp)]
  rfl

/-- Witness for C10 at a concrete record, date and clock: the key is
2022-06-27 but the stored DayLog is dated "today" (2026-01-05). -/
theorem C10_new_daylog_dated_today_witness :
    (recGet [(⟨2022, 1, 1⟩, ⟨⟨2022, 1, 1⟩, []⟩)] ⟨2022, 6, 27⟩ = none ∧
      strictlyAscending (if ([] : List DiffTime) = [] then [⟨9, 30, 0, 0⟩] else [])) ∧
    tsRecordConcat [(⟨2022, 1, 1⟩, ⟨⟨2022, 1, 1⟩, []⟩)] ⟨2022, 6, 27⟩ []
        ⟨2026, 1, 5⟩ ⟨9, 30, 0, 0⟩ =
      .ok ([(⟨2022, 1, 1⟩, ⟨⟨2022, 1, 1⟩, []⟩)] ++
        [(⟨2022, 6, 27⟩, ⟨⟨2026, 1, 5⟩,
          if ([] : List DiffTime) = [] then [⟨9, 30, 0, 0⟩] else []⟩)]) :=
  ⟨⟨by decide, by decide⟩,
    (C10_new_daylog_dated_today [(⟨2022, 1, 1⟩, ⟨⟨2022, 1, 1⟩, []⟩)]
      ⟨2022, 6, 27⟩ [] ⟨2026, 1, 5⟩ ⟨9, 30, 0, 0⟩ (by decide) (by decide)).1⟩

theorem Date.le_trans' {a b c : Date} (h1 : a ≤ b) (h2 : b ≤ c) : a ≤ c := by
  simp only [Date.le_def, Date.lt_def, Date.ext_iff'] at *
  omega

theorem Date.le_lt_trans' {a b c : Date} (h1 : a ≤ b) (h2 : b < c) : a < c := by
  simp only [Date.le_def, Date.lt_def, Date.ext_iff'] at *
  omega

theorem Date.lt_le_trans' {a b c : Date} (h1 : a < b) (h2 : b ≤ c) : a < c := by
  simp only [Date.le_def, Date.lt_def, Date.ext_iff'] at *
  omega

theorem Date.le_antisymm' {a b : Date} (h1 : a ≤ b) (h2 : b ≤ a) : a = b := by
  simp only [Date.le_def, Date.lt_def, Date.ext_iff'] at *
  omega

theorem Date.not_lt_iff {a b : Date} : ¬ a < b ↔ b ≤ a := by
  simp only [Date.le_def, Date.lt_def, Date.ext_iff']
  omega

theorem Date.le_of_lt' {a b : Date} (h : a < b) : a ≤ b := Or.inl h

theorem Date.lt_or_eq_of_le' {a b : Date} (h : a ≤ b) : a < b ∨ a = b := h

/-- `datetime.date.min` (0001-01-01). -/
def dateMinD : Date := ⟨1, 1, 1⟩

/-- `datetime.date.max` (9999-12-31). -/
def dateMaxD : Date := ⟨9999, 12, 31⟩

theorem dateMinD_le {d : Date} (h : d.Ok) : dateMinD ≤ d := by
  obtain ⟨h1, h2, h3, h4, h5⟩ := h
  show (⟨1, 1, 1⟩ : Date) ≤ d
  rw [Date.le_def, Date.lt_def, Date.ext_iff']
  dsimp only
  omega

theorem le_dateMaxD {d : Date} (h : d.Valid) : d ≤ dateMaxD := by
  obtain ⟨⟨h1, h2, h3, h4, h5⟩, h6⟩ := h
  have hd31 : d.day ≤ 31 := le_trans h5 (daysInMonth_le_31 _ _)
  show d ≤ (⟨9999, 12, 31⟩ : Date)
  rw [Date.le_def, Date.lt_def, Date.ext_iff']
  dsimp only
  omega

theorem valid_of_le {a b : Date} (ha : a.Ok) (h : a ≤ b) (hb : b.Valid) :
    a.Valid :=
  ⟨ha, le_trans (Date.year_le_of_le h) hb.2⟩

/-- Python's `min(x, y)` under date comparison (`y if y < x else x`). -/
def dmin (x y : Date) : Date := if y < x then y else x

/-- Python's `max(x, y)` under date comparison (`y if x < y else y`...
returns `y` exactly when `x < y`). -/
def dmax (x y : Date) : Date := if x < y then y else x

/-- `out.keys()` of the accumulating summary dict. -/
def outKeys (out : List (String × ℚ)) : List String := out.map Prod.fst

/-- `out[key] = out.get(key, 0) + v`: update in place when the key exists
(Python dicts keep the key's position), else append. -/
def outAdd (out : List (String × ℚ)) (key : String) (v : ℚ) :
    List (String × ℚ) :=
  if (out.find? (fun p => p.1 == key)).isSome then
    out.map (fun p => if p.1 = key then (key, p.2 + v) else p)
  else out ++ [(key, v)]

/-- `out[key] = out.get(key, 0)`: a no-op when the key exists (the bound
value is reassigned to itself), else insert the key with 0. -/
def outTouch (out : List (String × ℚ)) (key : String) : List (String × ℚ) :=
  if (out.find? (fun p => p.1 == key)).isSome then out
  else out ++ [(key, 0)]

/-- One iteration of `sum_DayLogs`'s scan: floor the entry's date, skip it
unless the floor lies in `[start_date, end_date)`, otherwise accumulate its
hours under the formatted key and update the running min/max. -/
def scanStep (A : TimeAggregate) (s e : Date)
    (st : List (String × ℚ) × Date × Date) (p : Date × DayLog) :
    List (String × ℚ) × Date × Date :=
  if s ≤ A.floor p.1 ∧ A.floor p.1 < e then
    (outAdd st.1 (A.fmt (A.floor p.1)) (sum_time_intervals p.2.timestamps),
      dmin (A.floor p.1) st.2.1, dmax (A.floor p.1) st.2.2)
  else st

/-- The scan loop of `sum_DayLogs` over the record, starting from the empty
dict and the sentinel `min_date = date.max`, `max_date = date.min`. -/
def scanRecord (A : TimeAggregate) (s e : Date) (record : Record) :
    List (String × ℚ) × Date × Date :=
  record.foldl (scanStep A s e) ([], dateMaxD, dateMinD)

/-- The backfill loop `while cur_date < max_date: out[key] = out.get(key, 0);
cur_date = aggregate.increment(cur_date)`.  The loop is given explicit fuel
to be total in Lean; for every built-in aggregate the increment strictly
increases the ordinal, so fuel `max.toOrd - cur.toOrd` never runs out
before the loop condition fails, and the function then agrees with the
Python loop. -/
def backfill (A : TimeAggregate) (maxD : Date) :
    Nat → Date → List (String × ℚ) → List (String × ℚ)
  | 0, _, out => out
  | fuel + 1, cur, out =>
    if cur < maxD then
      backfill A maxD fuel (A.increment cur) (outTouch out (A.fmt cur))
    else out

/-- `timesheet/utils.py::sum_DayLogs`: scan, backfill the buckets between
the observed min and max floors, and return the entries in ascending
key-string order. -/
def sum_DayLogs (record : Record) (start_date end_date : Date)
    (A : TimeAggregate) : List (String × ℚ) :=
  match scanRecord A start_date end_date record with
  | (out, minD, maxD) =>
    let filled := if out.length > 0 then
      backfill A maxD (maxD.toOrd - minD.toOrd) minD out else out
    filled.insertionSort (fun p q => p.1 ≤ q.1)

/-- The bucket floors of the record entries whose floor lies in the range
(the buckets the scan actually accumulates). -/
def inRangeFloors (A : TimeAggregate) (record : Record) (s e : Date) :
    List Date :=
  (record.filter (fun p => decide (s ≤ A.floor p.1 ∧ A.floor p.1 < e))).map
    (fun p => A.floor p.1)

theorem outFind_isSome_iff (out : List (String × ℚ)) (key : String) :
    (out.find? (fun p => p.1 == key)).isSome = true ↔ key ∈ outKeys out := by
  rw [List.find?_isSome]
  unfold outKeys
  simp only [beq_iff_eq, List.mem_map]

theorem outKeys_map_update (out : List (String × ℚ)) (key : String) (v : ℚ) :
    outKeys (out.map (fun p => if p.1 = key then (key, p.2 + v) else p)) =
      outKeys out := by
  unfold outKeys
  rw [List.map_map]
  apply List.map_congr_left
  intro p _
  by_cases h : p.1 = key <;> simp [h]

theorem outAdd_keys (out : List (String × ℚ)) (key : String) (v : ℚ) :
    ∀ k, k ∈ outKeys (outAdd out key v) ↔ (k ∈ outKeys out ∨ k = key) := by
  intro k
  unfold outAdd
  split
  · rename_i hp
    rw [outKeys_map_update]
    have hkey : key ∈ outKeys out := (outFind_isSome_iff out key).1 hp
    constructor
    · exact Or.inl
    · rintro (h | rfl)
      · exact h
      · exact hkey
  · unfold outKeys
    simp [List.mem_append]

theorem outAdd_nodup (out : List (String × ℚ)) (key : String) (v : ℚ)
    (h : (outKeys out).Nodup) : (outKeys (outAdd out key v)).Nodup := by
  unfold outAdd
  split
  · rwa [outKeys_map_update]
  · rename_i hp
    have hkey : key ∉ outKeys out := by
      intro hk
      exact hp ((outFind_isSome_iff out key).2 hk)
    show (outKeys (out ++ [(key, v)])).Nodup
    unfold outKeys at *
    rw [List.map_append, List.nodup_append]
    refine ⟨h, by simp, ?_⟩
    intro a ha hb
    simp only [List.map_cons, List.map_nil, List.mem_singleton] at hb
    subst hb
    exact hkey ha

theorem outAdd_ne_nil (out : List (String × ℚ)) (key : String) (v : ℚ) :
    outAdd out key v ≠ [] := by
  unfold outAdd
  split
  · rename_i hp
    intro he
    rw [List.map_eq_nil_iff] at he
    subst he
    simp at hp
  · simp

theorem outTouch_sublist (out : List (String × ℚ)) (key : String) :
    out.Sublist (outTouch out key) := by
  unfold outTouch
  split
  · exact List.Sublist.refl out
  · exact List.sublist_append_left out _

theorem outTouch_keys (out : List (String × ℚ)) (key : String) :
    ∀ k, k ∈ outKeys (outTouch out key) ↔ (k ∈ outKeys out ∨ k = key) := by
  intro k
  unfold outTouch
  split
  · rename_i hp
    have hkey : key ∈ outKeys out := (outFind_isSome_iff out key).1 hp
    constructor
    · exact Or.inl
    · rintro (h | rfl)
      · exact h
      · exact hkey
  · unfold outKeys
    simp [List.mem_append]

theorem outTouch_mem {out : List (String × ℚ)} {key : String}
    {p : String × ℚ} (h : p ∈ outTouch out key) : p ∈ out ∨ p = (key, 0) := by
  unfold outTouch at h
  split at h
  · exact Or.inl h
  · rcases List.mem_append.1 h with h' | h'
    · exact Or.inl h'
    · exact Or.inr (by simpa using h')

theorem outTouch_mem_zero {out : List (String × ℚ)} {key : String}
    (h : key ∉ outKeys out) : (key, (0 : ℚ)) ∈ outTouch out key := by
  unfold outTouch
  rw [if_neg (by
    intro hp
    exact h ((outFind_isSome_iff out key).1 hp))]
  simp

theorem outTouch_nodup (out : List (String × ℚ)) (key : String)
    (h : (outKeys out).Nodup) : (outKeys (outTouch out key)).Nodup := by
  unfold outTouch
  split
  · exact h
  · rename_i hp
    have hkey : key ∉ outKeys out := by
      intro hk
      exact hp ((outFind_isSome_iff out key).2 hk)
    unfold outKeys at *
    rw [List.map_append, List.nodup_append]
    refine ⟨h, by simp, ?_⟩
    intro a ha hb
    simp only [List.map_cons, List.map_nil, List.mem_singleton] at hb
    subst hb
    exact hkey ha

/-- A fixed point of a built-in aggregate's floor function, without the
`datetime` year cap (increments near the cap can leave the representable
range while still being well-formed dates). -/
def IsFloorOk (A : TimeAggregate) (f : Date) : Prop := f.Ok ∧ A.floor f = f

theorem isFloorOk_of_isFloorOf {A : TimeAggregate} {f : Date}
    (h : IsFloorOf A f) : IsFloorOk A f := ⟨h.1.1, h.2⟩

theorem builtin_increment_ok {A : TimeAggregate} (hA : A ∈ builtinAggregates)
    {f : Date} (hf : IsFloorOk A f) :
    IsFloorOk A (A.increment f) ∧ f < A.increment f := by
  obtain ⟨hOk, hfix⟩ := hf
  fin_cases hA
  · obtain ⟨hOk2, hto, hlt2, hfix2⟩ := increment_day_at f hOk
    exact ⟨⟨hOk2, hfix2⟩, hlt2⟩
  · obtain ⟨hOk2, hto, hlt2, hfix2⟩ := increment_week_at f hOk hfix
    exact ⟨⟨hOk2, hfix2⟩, hlt2⟩
  · obtain ⟨hOk2, hlt2, hfix2⟩ := increment_month_at f hOk
    exact ⟨⟨hOk2, hfix2⟩, hlt2⟩
  · obtain ⟨hOk2, hlt2, hfix2⟩ := increment_year_at f hOk
    exact ⟨⟨hOk2, hfix2⟩, hlt2⟩

theorem iter_floorok {A : TimeAggregate} (hA : A ∈ builtinAggregates)
    {m : Date} (hm : IsFloorOk A m) (j : Nat) :
    IsFloorOk A ((A.increment)^[j] m) := by
  induction j with
  | zero => simpa using hm
  | succ j ih =>
    rw [Function.iterate_succ_apply']
    exact (builtin_increment_ok hA ih).1

theorem iter_le {A : TimeAggregate} (hA : A ∈ builtinAggregates)
    {m : Date} (hm : IsFloorOk A m) (j : Nat) :
    m ≤ (A.increment)^[j] m := by
  induction j with
  | zero => simpa using Date.le_refl' m
  | succ j ih =>
    rw [Function.iterate_succ_apply']
    exact Date.le_trans' ih
      (Date.le_of_lt' (builtin_increment_ok hA (iter_floorok hA hm j)).2)

theorem floor_reach_aux {A : TimeAggregate} (hA : A ∈ builtinAggregates) :
    ∀ n : Nat, ∀ m g : Date, IsFloorOf A m → IsFloorOf A g → m ≤ g →
      g.toOrd - m.toOrd ≤ n → ∃ j, (A.increment)^[j] m = g := by
  intro n
  induction n with
  | zero =>
    intro m g hm hg hle hn
    have h1 := (toOrd_le_iff hm.1.1 hg.1.1).1 hle
    have h2 : m.toOrd = g.toOrd := by omega
    exact ⟨0, toOrd_inj hm.1.1 hg.1.1 h2⟩
  | succ n ih =>
    intro m g hm hg hle hn
    rcases Date.lt_or_eq_of_le' hle with hlt | rfl
    · obtain ⟨hnf, hgt, hub⟩ := builtin_next_floor hA hm hg hlt
      have h1 := (toOrd_lt_iff hm.1.1 hnf.1.1).1 hgt
      have h2 := (toOrd_le_iff hnf.1.1 hg.1.1).1 hub
      obtain ⟨j, hj⟩ := ih (A.increment m) g hnf hg hub (by omega)
      exact ⟨j + 1, by rw [Function.iterate_succ_apply]; exact hj⟩
    · exact ⟨0, rfl⟩

theorem floor_reach {A : TimeAggregate} (hA : A ∈ builtinAggregates)
    {m g : Date} (hm : IsFloorOf A m) (hg : IsFloorOf A g) (hle : m ≤ g) :
    ∃ j, (A.increment)^[j] m = g :=
  floor_reach_aux hA (g.toOrd - m.toOrd) m g hm hg hle (le_refl _)

theorem dmin_le_left (x y : Date) : dmin x y ≤ x := by
  unfold dmin
  split
  · exact Date.le_of_lt' (by assumption)
  · exact Date.le_refl' x

theorem dmin_le_right (x y : Date) : dmin x y ≤ y := by
  unfold dmin
  split
  · exact Date.le_refl' y
  · rename_i h
    exact Date.not_lt_iff.1 h

theorem dmin_eq_or (x y : Date) : dmin x y = x ∨ dmin x y = y := by
  unfold dmin
  split
  · exact Or.inr rfl
  · exact Or.inl rfl

theorem dmax_le_left (x y : Date) : x ≤ dmax x y := by
  unfold dmax
  split
  · exact Date.le_of_lt' (by assumption)
  · exact Date.le_refl' x

theorem dmax_le_right (x y : Date) : y ≤ dmax x y := by
  unfold dmax
  split
  · exact Date.le_refl' y
  · rename_i h
    exact Date.not_lt_iff.1 h

theorem dmax_eq_or (x y : Date) : dmax x y = x ∨ dmax x y = y := by
  unfold dmax
  split
  · exact Or.inr rfl
  · exact Or.inl rfl

theorem foldl_dmin_spec (S : List Date) : ∀ init : Date,
    (S.foldl (fun acc f => dmin f acc) init = init ∨
      S.foldl (fun acc f => dmin f acc) init ∈ S) ∧
    S.foldl (fun acc f => dmin f acc) init ≤ init ∧
    ∀ f ∈ S, S.foldl (fun acc f => dmin f acc) init ≤ f := by
  induction S with
  | nil => exact fun init => ⟨Or.inl rfl, Date.le_refl' init, by simp⟩
  | cons f S ih =>
    intro init
    rw [List.foldl_cons]
    obtain ⟨hmem, hle, hall⟩ := ih (dmin f init)
    have hlef : dmin f init ≤ f := dmin_le_left f init
    have hlei : dmin f init ≤ init := dmin_le_right f init
    refine ⟨?_, Date.le_trans' hle hlei, ?_⟩
    · rcases hmem with h | h
      · rcases dmin_eq_or f init with h2 | h2
        · exact Or.inr (by rw [h, h2]; exact List.mem_cons_self f S)
        · exact Or.inl (by rw [h, h2])
      · exact Or.inr (List.mem_cons_of_mem f h)
    · intro g hg
      rcases List.mem_cons.1 hg with rfl | hg'
      · exact Date.le_trans' hle hlef
      · exact hall g hg'

theorem foldl_dmax_spec (S : List Date) : ∀ init : Date,
    (S.foldl (fun acc f => dmax f acc) init = init ∨
      S.foldl (fun acc f => dmax f acc) init ∈ S) ∧
    init ≤ S.foldl (fun acc f => dmax f acc) init ∧
    ∀ f ∈ S, f ≤ S.foldl (fun acc f => dmax f acc) init := by
  induction S with
  | nil => exact fun init => ⟨Or.inl rfl, Date.le_refl' init, by simp⟩
  | cons f S ih =>
    intro init
    rw [List.foldl_cons]
    obtain ⟨hmem, hle, hall⟩ := ih (dmax f init)
    have hlef : f ≤ dmax f init := dmax_le_left f init
    have hlei : init ≤ dmax f init := dmax_le_right f init
    refine ⟨?_, Date.le_trans' hlei hle, ?_⟩
    · rcases hmem with h | h
      · rcases dmax_eq_or f init with h2 | h2
        · exact Or.inr (by rw [h, h2]; exact List.mem_cons_self f S)
        · exact Or.inl (by rw [h, h2])
      · exact Or.inr (List.mem_cons_of_mem f h)
    · intro g hg
      rcases List.mem_cons.1 hg with rfl | hg'
      · exact Date.le_trans' hlef hle
      · exact hall g hg'

theorem inRangeFloors_cons (A : TimeAggregate) (p : Date × DayLog)
    (r : Record) (s e : Date) :
    inRangeFloors A (p :: r) s e =
      if s ≤ A.floor p.1 ∧ A.floor p.1 < e then
        A.floor p.1 :: inRangeFloors A r s e
      else inRangeFloors A r s e := by
  unfold inRangeFloors
  rw [List.filter_cons]
  by_cases h : s ≤ A.floor p.1 ∧ A.floor p.1 < e <;> simp [h]

theorem mem_inRangeFloors {A : TimeAggregate} {record : Record} {s e f : Date} :
    f ∈ inRangeFloors A record s e ↔
      ∃ p ∈ record, (s ≤ A.floor p.1 ∧ A.floor p.1 < e) ∧ f = A.floor p.1 := by
  unfold inRangeFloors
  simp only [List.mem_map, List.mem_filter, decide_eq_true_eq]
  constructor
  · rintro ⟨p, ⟨hp, hc⟩, rfl⟩
    exact ⟨p, hp, hc, rfl⟩
  · rintro ⟨p, hp, hc, rfl⟩
    exact ⟨p, ⟨hp, hc⟩, rfl⟩

theorem inRangeFloors_isFloor {A : TimeAggregate} (hA : A ∈ builtinAggregates)
    {record : Record} {s e : Date}
    (hrec : ∀ p ∈ record, (p.1 : Date).Valid) :
    ∀ f ∈ inRangeFloors A record s e, IsFloorOf A f := by
  intro f hf
  obtain ⟨p, hp, _, rfl⟩ := mem_inRangeFloors.1 hf
  exact (builtin_floor_props hA (hrec p hp)).1

theorem scanRecord_spec (A : TimeAggregate) (s e : Date) (r : Record) :
    ∀ out₀ : List (String × ℚ), ∀ mn₀ mx₀ : Date,
    (r.foldl (scanStep A s e) (out₀, mn₀, mx₀)).2.1 =
      (inRangeFloors A r s e).foldl (fun acc f => dmin f acc) mn₀ ∧
    (r.foldl (scanStep A s e) (out₀, mn₀, mx₀)).2.2 =
      (inRangeFloors A r s e).foldl (fun acc f => dmax f acc) mx₀ ∧
    (∀ k, k ∈ outKeys (r.foldl (scanStep A s e) (out₀, mn₀, mx₀)).1 ↔
      (k ∈ outKeys out₀ ∨ ∃ f ∈ inRangeFloors A r s e, k = A.fmt f)) ∧
    ((outKeys out₀).Nodup →
      (outKeys (r.foldl (scanStep A s e) (out₀, mn₀, mx₀)).1).Nodup) ∧
    ((r.foldl (scanStep A s e) (out₀, mn₀, mx₀)).1 = [] ↔
      (out₀ = [] ∧ inRangeFloors A r s e = [])) := by
  induction r with
  | nil =>
    intro out₀ mn₀ mx₀
    refine ⟨rfl, rfl, ?_, fun h => h, by simp [inRangeFloors]⟩
    intro k
    simp [inRangeFloors]
  | cons p r ih =>
    intro out₀ mn₀ mx₀
    rw [List.foldl_cons, inRangeFloors_cons]
    by_cases hc : s ≤ A.floor p.1 ∧ A.floor p.1 < e
    · have hstep : scanStep A s e (out₀, mn₀, mx₀) p =
          (outAdd out₀ (A.fmt (A.floor p.1)) (sum_time_intervals p.2.timestamps),
            dmin (A.floor p.1) mn₀, dmax (A.floor p.1) mx₀) := by
        unfold scanStep
        rw [if_pos hc]
      rw [hstep, if_pos hc]
      obtain ⟨h1, h2, h3, h4, h5⟩ :=
        ih (outAdd out₀ (A.fmt (A.floor p.1)) (sum_time_intervals p.2.timestamps))
          (dmin (A.floor p.1) mn₀) (dmax (A.floor p.1) mx₀)
      refine ⟨by rw [h1, List.foldl_cons], by rw [h2, List.foldl_cons], ?_, ?_, ?_⟩
      · intro k
        rw [h3 k]
        constructor
        · rintro (hk | ⟨f, hf, rfl⟩)
          · rcases (outAdd_keys out₀ _ _ k).1 hk with hk' | rfl
            · exact Or.inl hk'
            · exact Or.inr ⟨A.floor p.1, List.mem_cons_self _ _, rfl⟩
          · exact Or.inr ⟨f, List.mem_cons_of_mem _ hf, rfl⟩
        · rintro (hk | ⟨f, hf, rfl⟩)
          · exact Or.inl ((outAdd_keys out₀ _ _ k).2 (Or.inl hk))
          · rcases List.mem_cons.1 hf with rfl | hf'
            · exact Or.inl ((outAdd_keys out₀ _ _ _).2 (Or.inr rfl))
            · exact Or.inr ⟨f, hf', rfl⟩
      · intro hnd
        exact h4 (outAdd_nodup out₀ _ _ hnd)
      · rw [h5]
        constructor
        · rintro ⟨he, -⟩
          exact absurd he (outAdd_ne_nil out₀ _ _)
        · rintro ⟨-, he⟩
          exact absurd he (by simp)
    · have hstep : scanStep A s e (out₀, mn₀, mx₀) p = (out₀, mn₀, mx₀) := by
        unfold scanStep
        rw [if_neg hc]
      rw [hstep, if_neg hc]
      exact ih out₀ mn₀ mx₀

theorem iter_not_lt_start {A : TimeAggregate} (hA : A ∈ builtinAggregates)
    {cur : Date} (hc : IsFloorOk A cur) (j : Nat) :
    ¬ ((A.increment)^[j] cur < cur) := fun h =>
  Date.lt_irrefl _ (Date.lt_le_trans' h (iter_le hA hc j))

theorem backfill_spec {A : TimeAggregate} (hA : A ∈ builtinAggregates)
    {M : Date} (hM : IsFloorOf A M) :
    ∀ fuel : Nat, ∀ cur : Date, ∀ out : List (String × ℚ),
      IsFloorOf A cur → cur ≤ M → M.toOrd - cur.toOrd ≤ fuel →
      (∀ k, k ∈ outKeys (backfill A M fuel cur out) ↔
        (k ∈ outKeys out ∨
          ∃ j, (A.increment)^[j] cur < M ∧ k = A.fmt ((A.increment)^[j] cur))) ∧
      (∀ j, (A.increment)^[j] cur < M →
        A.fmt ((A.increment)^[j] cur) ∉ outKeys out →
        (A.fmt ((A.increment)^[j] cur), (0 : ℚ)) ∈ backfill A M fuel cur out) ∧
      out.Sublist (backfill A M fuel cur out) ∧
      ((outKeys out).Nodup → (outKeys (backfill A M fuel cur out)).Nodup) := by
  intro fuel
  induction fuel with
  | zero =>
    intro cur out hcur hle hfuel
    have hord := (toOrd_le_iff hcur.1.1 hM.1.1).1 hle
    have heq : cur = M := toOrd_inj hcur.1.1 hM.1.1 (by omega)
    subst heq
    have hno : ∀ j, ¬ ((A.increment)^[j] cur < cur) :=
      iter_not_lt_start hA (isFloorOk_of_isFloorOf hcur)
    refine ⟨?_, ?_, List.Sublist.refl out, fun h => h⟩
    · intro k
      show k ∈ outKeys out ↔ _
      constructor
      · exact Or.inl
      · rintro (hk | ⟨j, hj, rfl⟩)
        · exact hk
        · exact absurd hj (hno j)
    · intro j hj
      exact absurd hj (hno j)
  | succ fuel ih =>
    intro cur out hcur hle hfuel
    have hbf : backfill A M (fuel + 1) cur out = if cur < M then
        backfill A M fuel (A.increment cur) (outTouch out (A.fmt cur)) else out := rfl
    rw [hbf]
    by_cases hlt : cur < M
    · rw [if_pos hlt]
      obtain ⟨hnf, hgt, hub⟩ := builtin_next_floor hA hcur hM hlt
      have ho1 := (toOrd_lt_iff hcur.1.1 hnf.1.1).1 hgt
      have ho2 := (toOrd_le_iff hnf.1.1 hM.1.1).1 hub
      obtain ⟨K, Z, SL, ND⟩ :=
        ih (A.increment cur) (outTouch out (A.fmt cur)) hnf hub (by omega)
      have hiter : ∀ j, (A.increment)^[j + 1] cur = (A.increment)^[j] (A.increment cur) :=
        fun j => Function.iterate_succ_apply (A.increment) j cur
      have hfloor_iter : ∀ j, IsFloorOk A ((A.increment)^[j] (A.increment cur)) :=
        iter_floorok hA (isFloorOk_of_isFloorOf hnf)
      have hvalid_iter : ∀ j, (A.increment)^[j] (A.increment cur) < M →
          IsFloorOf A ((A.increment)^[j] (A.increment cur)) := by
        intro j hj
        exact ⟨valid_of_le (hfloor_iter j).1 (Date.le_of_lt' hj) hM.1, (hfloor_iter j).2⟩
      have hne : ∀ j, (A.increment)^[j] (A.increment cur) < M →
          A.fmt ((A.increment)^[j] (A.increment cur)) ≠ A.fmt cur := by
        intro j hj he
        have hlt2 : cur < (A.increment)^[j] (A.increment cur) :=
          Date.lt_le_trans' hgt (iter_le hA (isFloorOk_of_isFloorOf hnf) j)
        have := builtin_fmt_inj hA (hvalid_iter j hj) hcur he
        rw [this] at hlt2
        exact Date.lt_irrefl _ hlt2
      refine ⟨?_, ?_, ?_, ?_⟩
      · intro k
        rw [K k]
        constructor
        · rintro (hk | ⟨j, hj, rfl⟩)
          · rcases (outTouch_keys out _ k).1 hk with hk' | rfl
            · exact Or.inl hk'
            · exact Or.inr ⟨0, by simpa using hlt, rfl⟩
          · exact Or.inr ⟨j + 1, by rw [hiter j]; exact hj, by rw [hiter j]⟩
        · rintro (hk | ⟨j, hj, rfl⟩)
          · exact Or.inl ((outTouch_keys out _ k).2 (Or.inl hk))
          · cases j with
            | zero => exact Or.inl ((outTouch_keys out _ _).2 (Or.inr (by simp)))
            | succ j =>
              rw [hiter j] at hj ⊢
              exact Or.inr ⟨j, hj, rfl⟩
      · intro j hj hnk
        cases j with
        | zero =>
          have h0 : (A.increment)^[0] cur = cur := rfl
          rw [h0] at hnk ⊢
          have hmem : (A.fmt cur, (0 : ℚ)) ∈ outTouch out (A.fmt cur) :=
            outTouch_mem_zero hnk
          exact SL.subset hmem
        | succ j =>
          rw [hiter j] at hj hnk ⊢
          refine Z j hj ?_
          intro hk
          rcases (outTouch_keys out _ _).1 hk with hk' | hk'
          · exact hnk hk'
          · exact hne j hj hk'
      · exact (outTouch_sublist out _).trans SL
      · intro hnd
        exact ND (outTouch_nodup out _ hnd)
    · rw [if_neg hlt]
      have hle2 : M ≤ cur := Date.not_lt_iff.1 hlt
      have heq : cur = M := Date.le_antisymm' hle hle2
      subst heq
      have hno : ∀ j, ¬ ((A.increment)^[j] cur < cur) :=
        iter_not_lt_start hA (isFloorOk_of_isFloorOf hcur)
      refine ⟨?_, ?_, List.Sublist.refl out, fun h => h⟩
      · intro k
        constructor
        · exact Or.inl
        · rintro (hk | ⟨j, hj, rfl⟩)
          · exact hk
          · exact absurd hj (hno j)
      · intro j hj
        exact absurd hj (hno j)

theorem sum_DayLogs_eq (record : Record) (s e : Date) (A : TimeAggregate) :
    sum_DayLogs record s e A =
      (if (record.foldl (scanStep A s e) ([], dateMaxD, dateMinD)).1.length > 0 then
        backfill A (record.foldl (scanStep A s e) ([], dateMaxD, dateMinD)).2.2
          ((record.foldl (scanStep A s e) ([], dateMaxD, dateMinD)).2.2.toOrd -
            (record.foldl (scanStep A s e) ([], dateMaxD, dateMinD)).2.1.toOrd)
          (record.foldl (scanStep A s e) ([], dateMaxD, dateMinD)).2.1
          (record.foldl (scanStep A s e) ([], dateMaxD, dateMinD)).1
      else (record.foldl (scanStep A s e) ([], dateMaxD, dateMinD)).1).insertionSort
        (fun p q => p.1 ≤ q.1) := rfl

/-- C1: for every date-keyed DayLog record (with representable dates), every
half-open range `[start_date, end_date)` and every built-in aggregate,
`sum_DayLogs` (i) returns the empty mapping when no entry's floored date is
in range, and (ii) otherwise, writing `m`/`M` for the least/greatest in-range
floor, returns a mapping with no duplicate keys whose keys are exactly the
formatted bucket floors `m, increment m, increment² m, …` up to and
including `M` — stepping by the aggregate's increment with no gaps, never
synthesizing a bucket outside `[m, M]` and excluding every out-of-range
entry — in which every bucket not equal to the floor of an in-range entry
carries the value 0. -/
theorem C1_sum_DayLogs_buckets (A : TimeAggregate) (hA : A ∈ builtinAggregates)
    (record : Record) (s e : Date)
    (hrec : ∀ p ∈ record, (p.1 : Date).Valid) :
    (inRangeFloors A record s e = [] → sum_DayLogs record s e A = []) ∧
    (inRangeFloors A record s e ≠ [] →
      ∃ m M : Date, m ∈ inRangeFloors A record s e ∧
        M ∈ inRangeFloors A record s e ∧
        (∀ f ∈ inRangeFloors A record s e, m ≤ f ∧ f ≤ M) ∧
        (outKeys (sum_DayLogs record s e A)).Nodup ∧
        (∀ k, k ∈ outKeys (sum_DayLogs record s e A) ↔
          ∃ j, (A.increment)^[j] m ≤ M ∧ k = A.fmt ((A.increment)^[j] m)) ∧
        (∀ j, (A.increment)^[j] m ≤ M →
          (A.increment)^[j] m ∉ inRangeFloors A record s e →
          (A.fmt ((A.increment)^[j] m), (0 : ℚ)) ∈ sum_DayLogs record s e A)) := by
  obtain ⟨hmn, hmx, hkeys, hnd, hemp⟩ :=
    scanRecord_spec A s e record [] dateMaxD dateMinD
  have hkeys0 : outKeys ([] : List (String × ℚ)) = [] := rfl
  rw [hkeys0] at hkeys
  constructor
  · intro hS0
    have hout : (record.foldl (scanStep A s e) ([], dateMaxD, dateMinD)).1 = [] :=
      hemp.2 ⟨rfl, hS0⟩
    rw [sum_DayLogs_eq, hout]
    rfl
  · intro hSne
    set S := inRangeFloors A record s e with hSdef
    set m := S.foldl (fun acc f => dmin f acc) dateMaxD with hm_def
    set M := S.foldl (fun acc f => dmax f acc) dateMinD with hM_def
    have hfloors : ∀ f ∈ S, IsFloorOf A f := inRangeFloors_isFloor hA hrec
    obtain ⟨hm_or, hm_le, hm_all⟩ := foldl_dmin_spec S dateMaxD
    obtain ⟨hM_or, hM_ge, hM_all⟩ := foldl_dmax_spec S dateMinD
    obtain ⟨f₀, hf₀⟩ := List.exists_mem_of_ne_nil S hSne
    have hmmem : m ∈ S := by
      rcases hm_or with h | h
      · have h1 : m ≤ f₀ := hm_all f₀ hf₀
        have h2 : f₀ ≤ dateMaxD := le_dateMaxD (hfloors f₀ hf₀).1
        rw [← h] at h2
        have : m = f₀ := Date.le_antisymm' h1 h2
        rw [this]; exact hf₀
      · exact h
    have hMmem : M ∈ S := by
      rcases hM_or with h | h
      · have h1 : f₀ ≤ M := hM_all f₀ hf₀
        have h2 : dateMinD ≤ f₀ := dateMinD_le (hfloors f₀ hf₀).1.1
        rw [← h] at h2
        have : M = f₀ := Date.le_antisymm' h2 h1
        rw [this]; exact hf₀
      · exact h
    have hmf : IsFloorOf A m := hfloors m hmmem
    have hMf : IsFloorOf A M := hfloors M hMmem
    have hmM : m ≤ M := hm_all M hMmem
    have hout_ne : (record.foldl (scanStep A s e) ([], dateMaxD, dateMinD)).1 ≠ [] := by
      intro h
      exact hSne (hemp.1 h).2
    have hlen : (record.foldl (scanStep A s e) ([], dateMaxD, dateMinD)).1.length > 0 :=
      List.length_pos.2 hout_ne
    have hsum : sum_DayLogs record s e A =
        (backfill A M (M.toOrd - m.toOrd) m
          (record.foldl (scanStep A s e) ([], dateMaxD, dateMinD)).1).insertionSort
          (fun p q => p.1 ≤ q.1) := by
      rw [sum_DayLogs_eq, if_pos hlen, hmn, hmx]
    obtain ⟨K, Z, SL, ND⟩ :=
      backfill_spec hA hMf (M.toOrd - m.toOrd) m
        (record.foldl (scanStep A s e) ([], dateMaxD, dateMinD)).1 hmf hmM (le_refl _)
    have hperm : List.Perm
        ((backfill A M (M.toOrd - m.toOrd) m
          (record.foldl (scanStep A s e) ([], dateMaxD, dateMinD)).1).insertionSort
          (fun p q => p.1 ≤ q.1))
        (backfill A M (M.toOrd - m.toOrd) m
          (record.foldl (scanStep A s e) ([], dateMaxD, dateMinD)).1) :=
      List.perm_insertionSort _ _
    have hkperm : List.Perm
        (outKeys ((backfill A M (M.toOrd - m.toOrd) m
          (record.foldl (scanStep A s e) ([], dateMaxD, dateMinD)).1).insertionSort
          (fun p q => p.1 ≤ q.1)))
        (outKeys (backfill A M (M.toOrd - m.toOrd) m
          (record.foldl (scanStep A s e) ([], dateMaxD, dateMinD)).1)) :=
      hperm.map Prod.fst
    have hiterval : ∀ j, (A.increment)^[j] m ≤ M → IsFloorOf A ((A.increment)^[j] m) := by
      intro j hj
      have hk := iter_floorok hA (isFloorOk_of_isFloorOf hmf) j
      exact ⟨valid_of_le hk.1 hj hMf.1, hk.2⟩
    refine ⟨m, M, hmmem, hMmem, fun f hf => ⟨hm_all f hf, hM_all f hf⟩, ?_, ?_, ?_⟩
    · rw [hsum]
      exact hkperm.nodup_iff.2 (ND (hnd (by simp [outKeys])))
    · intro k
      rw [hsum, hkperm.mem_iff, K k]
      constructor
      · rintro (hk | ⟨j, hj, rfl⟩)
        · obtain (h | ⟨f, hf, rfl⟩) := (hkeys k).1 hk
          · exact absurd h (List.not_mem_nil k)
          · obtain ⟨j, hj⟩ := floor_reach hA hmf (hfloors f hf) (hm_all f hf)
            exact ⟨j, by rw [hj]; exact hM_all f hf, by rw [hj]⟩
        · exact ⟨j, Date.le_of_lt' hj, rfl⟩
      · rintro ⟨j, hj, rfl⟩
        rcases Date.lt_or_eq_of_le' hj with hlt | heq
        · exact Or.inr ⟨j, hlt, rfl⟩
        · refine Or.inl ((hkeys _).2 (Or.inr ⟨M, hMmem, ?_⟩))
          rw [heq]
    · intro j hj hnotin
      rcases Date.lt_or_eq_of_le' hj with hlt | heq
      · rw [hsum, hperm.mem_iff]
        refine Z j hlt ?_
        intro hk
        obtain (h | ⟨f, hf, hfk⟩) := (hkeys _).1 hk
        · exact absurd h (List.not_mem_nil _)
        · have := builtin_fmt_inj hA (hiterval j hj) (hfloors f hf) hfk
          rw [this] at hnotin
          exact hnotin hf
      · rw [heq] at hnotin
        exact absurd hMmem hnotin

theorem C1_sum_DayLogs_buckets_witness :
    (TimeAggregate.Year ∈ builtinAggregates ∧
      (∀ p ∈ ([(⟨2022, 3, 15⟩, ⟨⟨2022, 3, 15⟩, []⟩)] : Record),
        (p.1 : Date).Valid)) ∧
    ((inRangeFloors TimeAggregate.Year
        [(⟨2022, 3, 15⟩, ⟨⟨2022, 3, 15⟩, []⟩)] ⟨1, 1, 1⟩ ⟨9999, 12, 31⟩ = [] →
      sum_DayLogs [(⟨2022, 3, 15⟩, ⟨⟨2022, 3, 15⟩, []⟩)] ⟨1, 1, 1⟩ ⟨9999, 12, 31⟩
        TimeAggregate.Year = []) ∧
    (inRangeFloors TimeAggregate.Year
        [(⟨2022, 3, 15⟩, ⟨⟨2022, 3, 15⟩, []⟩)] ⟨1, 1, 1⟩ ⟨9999, 12, 31⟩ ≠ [] →
      ∃ m M : Date,
        m ∈ inRangeFloors TimeAggregate.Year
          [(⟨2022, 3, 15⟩, ⟨⟨2022, 3, 15⟩, []⟩)] ⟨1, 1, 1⟩ ⟨9999, 12, 31⟩ ∧
        M ∈ inRangeFloors TimeAggregate.Year
          [(⟨2022, 3, 15⟩, ⟨⟨2022, 3, 15⟩, []⟩)] ⟨1, 1, 1⟩ ⟨9999, 12, 31⟩ ∧
        (∀ f ∈ inRangeFloors TimeAggregate.Year
          [(⟨2022, 3, 15⟩, ⟨⟨2022, 3, 15⟩, []⟩)] ⟨1, 1, 1⟩ ⟨9999, 12, 31⟩,
          m ≤ f ∧ f ≤ M) ∧
        (outKeys (sum_DayLogs [(⟨2022, 3, 15⟩, ⟨⟨2022, 3, 15⟩, []⟩)]
          ⟨1, 1, 1⟩ ⟨9999, 12, 31⟩ TimeAggregate.Year)).Nodup ∧
        (∀ k, k ∈ outKeys (sum_DayLogs [(⟨2022, 3, 15⟩, ⟨⟨2022, 3, 15⟩, []⟩)]
            ⟨1, 1, 1⟩ ⟨9999, 12, 31⟩ TimeAggregate.Year) ↔
          ∃ j, (TimeAggregate.Year.increment)^[j] m ≤ M ∧
            k = TimeAggregate.Year.fmt ((TimeAggregate.Year.increment)^[j] m)) ∧
        (∀ j, (TimeAggregate.Year.increment)^[j] m ≤ M →
          (TimeAggregate.Year.increment)^[j] m ∉ inRangeFloors TimeAggregate.Year
            [(⟨2022, 3, 15⟩, ⟨⟨2022, 3, 15⟩, []⟩)] ⟨1, 1, 1⟩ ⟨9999, 12, 31⟩ →
          (TimeAggregate.Year.fmt ((TimeAggregate.Year.increment)^[j] m), (0 : ℚ)) ∈
            sum_DayLogs [(⟨2022, 3, 15⟩, ⟨⟨2022, 3, 15⟩, []⟩)]
              ⟨1, 1, 1⟩ ⟨9999, 12, 31⟩ TimeAggregate.Year))) :=
  ⟨⟨List.Mem.tail _ (List.Mem.tail _ (List.Mem.tail _ (List.Mem.head _))),
    by intro p hp; rw [List.mem_singleton] at hp; subst hp; decide⟩,
    C1_sum_DayLogs_buckets TimeAggregate.Year
      (List.Mem.tail _ (List.Mem.tail _ (List.Mem.tail _ (List.Mem.head _))))
      [(⟨2022, 3, 15⟩, ⟨⟨2022, 3, 15⟩, []⟩)] ⟨1, 1, 1⟩ ⟨9999, 12, 31⟩
      (by intro p hp; rw [List.mem_singleton] at hp; subst hp; decide)⟩
